import Mathlib

/-!
Verification of the dolphin-rs message translation pipeline.

The Rust sources are shallowly embedded over `List Char`: a Rust `&str` is
modelled as its list of Unicode scalar values, and the byte-length-sensitive
operations (`str::len`, `str::get` with byte ranges) are modelled through
`Char.utf8Size`, so that byte offsets that fall on character boundaries
correspond exactly to splits of the character list. Recursive scanners are
given explicit fuel so that every definition is structurally recursive and
kernel-reducible; in each case the fuel passed by the top-level wrapper is
shown (or argued in the accompanying comment) to be sufficient, so the
fuelled function agrees with the Rust loop on every input.
-/

set_option maxRecDepth 100000

/-- Characters written via their code points to keep the source free of
delicate literals. -/
def backslashChar : Char := Char.ofNat 92

def backtickChar : Char := Char.ofNat 96

def nlChar : Char := Char.ofNat 10

def apostropheChar : Char := Char.ofNat 39

/-- The character list of a string literal. -/
def lstr (s : String) : List Char := s.toList

/-- Rust `str::len`: the number of UTF-8 bytes of the text. -/
def utf8Len (l : List Char) : Nat := l.foldr (fun c a => c.utf8Size + a) 0

/-- Rust `str::contains(pat)`: some suffix of `l` starts with `pat`. -/
def containsSub (l pat : List Char) : Bool :=
  pat.isPrefixOf l ||
    match l with
    | [] => false
    | _ :: rest => containsSub rest pat

/-- Rust `str::split(d)`: the fragments between occurrences of `d`
(`n` separators yield `n + 1` fragments, empty fragments included). -/
def splitChar (d : Char) : List Char → List (List Char)
  | [] => [[]]
  | c :: rest =>
    if c = d then [] :: splitChar d rest
    else
      match splitChar d rest with
      | p :: ps => (c :: p) :: ps
      | [] => [[c]]

/-- Rust `str::find(' ')` restricted to the space character: index of the
first space, if any.  Byte and character indices agree up to the first
match because the prefix before it is the same character list. -/
def findSpace : List Char → Option Nat
  | [] => none
  | c :: rest => if c = ' ' then some 0 else (findSpace rest).map (· + 1)

/-- Rust `str::find(pat)`: index of the first position whose suffix starts
with `pat`. -/
def findSubIdx (pat : List Char) : List Char → Option Nat
  | [] => if pat.isEmpty then some 0 else none
  | l@(_ :: rest) =>
    if pat.isPrefixOf l then some 0 else (findSubIdx pat rest).map (· + 1)

/-- Rust `str::trim_start` (the code never feeds it non-ASCII whitespace). -/
def trimStartL (l : List Char) : List Char := l.dropWhile Char.isWhitespace

/-- Rust `str::trim_end`. -/
def trimEndL (l : List Char) : List Char :=
  (l.reverse.dropWhile Char.isWhitespace).reverse

/-- Rust `str::trim`. -/
def trimL (l : List Char) : List Char := trimEndL (trimStartL l)

/-! ## LineChunker: `truncate_lines` from src/discord/mod.rs -/

/-- Embedding of `MAX_LINE_LENGTH` from src/discord/mod.rs. -/
def MAX_LINE_LENGTH : Nat := 100

/-- Rust `str::get(..n)` for a byte count `n`: splits off the prefix whose
UTF-8 encoding is exactly `n` bytes.  Returns `none` when the text is
shorter than `n` bytes or byte offset `n` falls inside a character —
exactly the cases where `get` yields `None`. -/
def takeBytes : Nat → List Char → Option (List Char × List Char)
  | 0, l => some ([], l)
  | _ + 1, [] => none
  | n + 1, c :: rest =>
    if c.utf8Size ≤ n + 1 then
      (takeBytes (n + 1 - c.utf8Size) rest).map fun pr => (c :: pr.1, pr.2)
    else none

/-- One iteration sequence of the `while !line.is_empty()` loop in
`truncate_lines`, with fuel.  `line.get(..100)` succeeding pushes that
prefix and continues on the rest; failing (`None`) pushes the whole
remaining line and clears it, ending the loop. -/
def ttGo : Nat → List Char → List (List Char)
  | 0, _ => []
  | _ + 1, [] => []
  | fuel + 1, c :: rest =>
    match takeBytes MAX_LINE_LENGTH (c :: rest) with
    | some (p, r) => p :: ttGo fuel r
    | none => [c :: rest]

/-- The per-line chunking loop of `truncate_lines`.  The fuel
`l.length + 1` is sufficient: every successful `takeBytes` removes at
least one character from the line. -/
def truncate_line (l : List Char) : List (List Char) := ttGo (l.length + 1) l

/-- Embedding of `truncate_lines` from src/discord/mod.rs. -/
def truncate_lines (lines : List (List Char)) : List (List Char) :=
  match lines with
  | [] => []
  | l :: rest => truncate_line l ++ truncate_lines rest

/-! ## MarkdownParser: Span scanner from src/markdown/span/

The span matchers in the source act through `fancy_regex` patterns with
lazy repetition, alternation and look-around.  Each pattern is embedded
as a direct backtracking scanner over the character list whose
branch order mirrors the leftmost/lazy preference of the regex engine.  For
each anchored pattern the scanner returns the length `n` (in characters)
of the capture group `text`, from which the source computes the consumed
amount `t.len() + k`.  Word characters (`\w`) and whitespace (`\s`) are
modelled by `Char.isAlphanum`/`Char.isWhitespace`, which agree with the
engine on the ASCII inputs the program handles. -/

/-- Embedding of `\w` of the regex engine, on the ASCII range. -/
def isWordChar (c : Char) : Bool := c.isAlphanum || c = '_'

/-- The trailing `\b` after the closing `_` of the underscore-emphasis
pattern: the next character is absent or not a word character. -/
def wordBreakAt : List Char → Bool
  | [] => true
  | c :: _ => !isWordChar c

/-- The lazy body `(?P<text>.+?)` followed by the two-character closer
`dd` (optionally guarded by a negative lookahead `(?!d)`), as used by the
`parse_strong`, `parse_strikethrough` and `parse_underline` regexes.
Returns the length of the shortest nonempty body: at each position the
scanner first tries to close (lazy preference) and otherwise lets `.`
consume one character, failing on a newline, which `.` does not match. -/
def lazyDelim (d : Char) (noFollow : Bool) : List Char → Nat → Option Nat
  | [], _ => none
  | c :: rest, n =>
    if n ≥ 1 ∧ c = d ∧ rest.head? = some d ∧
        (noFollow → rest.tail.head? ≠ some d) then
      some n
    else if c = nlChar then none
    else lazyDelim d noFollow rest (n + 1)

/-- The star alternative of the `parse_emphasis` regex, after the opening
`*` and the `(?=\S)` lookahead: a lazy repetition of
`\*\*` | `\\[\s\S]` | `\s+(\\[\s\S]|[^\s\*\\]|\*\*)` | `[^\s\*\\]`,
closed by `\*(?!\*)`.  The first characters of the alternatives are
mutually exclusive and whitespace can only be matched by the third
alternative (whose unit consumes the first non-space character after the
run), so the backtracking search is the deterministic scan below; `w`
counts pending whitespace not yet justified by a following unit. -/
def empStarGo : List Char → Nat → Nat → Option Nat
  | [], _, _ => none
  | c :: rest, n, w =>
    if c.isWhitespace then empStarGo rest n (w + 1)
    else if c = '*' then
      match rest with
      | c₂ :: rest₂ =>
        if c₂ = '*' then empStarGo rest₂ (n + w + 2) 0
        else if w = 0 ∧ n ≥ 1 then some n else none
      | [] => if w = 0 ∧ n ≥ 1 then some n else none
    else if c = backslashChar then
      match rest with
      | _ :: rest₂ => empStarGo rest₂ (n + w + 2) 0
      | [] => none
    else empStarGo rest (n + w + 1) 0

/-- The underscore alternative of the `parse_emphasis` regex, after the
opening `\b_`: a lazy repetition of `__` | `\\[\s\S]` | `[^\\_]`, closed
by `_\b`.  Again the alternatives have mutually exclusive first
characters, and the lazy close is preferred whenever its `\b` holds. -/
def empUnd : List Char → Nat → Option Nat
  | [], _ => none
  | c :: rest, n =>
    if c = '_' then
      if n ≥ 1 ∧ wordBreakAt rest then some n
      else
        match rest with
        | c₂ :: rest₂ => if c₂ = '_' then empUnd rest₂ (n + 2) else none
        | [] => none
    else if c = backslashChar then
      match rest with
      | _ :: rest₂ => empUnd rest₂ (n + 2)
      | [] => none
    else empUnd rest (n + 1)

/-- The tag of a delimited span matcher, before the recursive span parse of
its inner text. -/
inductive SpanTag where
  | emphasis
  | strong
  | strikethrough
  | underline
deriving DecidableEq

/-- Result of one matcher: either a `Literal` escape or a delimited span
whose inner text still has to be parsed recursively. -/
inductive RawSpan where
  | lit (c : Char)
  | tagged (t : SpanTag) (inner : List Char)
deriving DecidableEq

/-- Embedding of `parse_escape` from src/markdown/span/mod.rs. -/
def parse_escape_raw : List Char → Option (RawSpan × Nat)
  | b :: c :: _ =>
    if b = backslashChar ∧
        (c = backslashChar ∨ c = backtickChar ∨ c = '*' ∨ c = '_') then
      some (.lit c, 2)
    else none
  | _ => none

/-- Embedding of `parse_strong` from src/markdown/span/strong.rs:
`^\*\*(?P<text>.+?)\*\*(?!\*)`, consuming `t.len() + 4`. -/
def parse_strong_raw : List Char → Option (RawSpan × Nat)
  | c₁ :: c₂ :: rest =>
    if c₁ = '*' ∧ c₂ = '*' then
      (lazyDelim '*' true rest 0).map fun n =>
        (.tagged .strong (rest.take n), n + 4)
    else none
  | _ => none

/-- Embedding of `parse_strikethrough` from src/markdown/span/strikethrough.rs:
`^~~(?P<text>.+?)~~`, consuming `t.len() + 4`. -/
def parse_strikethrough_raw : List Char → Option (RawSpan × Nat)
  | c₁ :: c₂ :: rest =>
    if c₁ = '~' ∧ c₂ = '~' then
      (lazyDelim '~' false rest 0).map fun n =>
        (.tagged .strikethrough (rest.take n), n + 4)
    else none
  | _ => none

/-- Embedding of `parse_underline` from src/markdown/span/underline.rs:
`^__(?P<text>.+?)__(?!_)`, consuming `t.len() + 4`. -/
def parse_underline_raw : List Char → Option (RawSpan × Nat)
  | c₁ :: c₂ :: rest =>
    if c₁ = '_' ∧ c₂ = '_' then
      (lazyDelim '_' true rest 0).map fun n =>
        (.tagged .underline (rest.take n), n + 4)
    else none
  | _ => none

/-- The lookahead `(?=\S)` and group match of the star alternative, applied
to the text after the opening `*`. -/
def parse_emphasis_star : List Char → Option (RawSpan × Nat)
  | [] => none
  | c₂ :: rest₂ =>
    if c₂.isWhitespace then none
    else (empStarGo (c₂ :: rest₂) 0 0).map fun n =>
      (.tagged .emphasis ((c₂ :: rest₂).take n), n + 2)

/-- Dispatch of the two `parse_emphasis` regex alternatives on the first
character. -/
def parse_emphasis_tail (c : Char) (rest : List Char) : Option (RawSpan × Nat) :=
  if c = '_' then
    (empUnd rest 0).map fun n => (.tagged .emphasis (rest.take n), n + 2)
  else if c = '*' then parse_emphasis_star rest
  else none

/-- Embedding of `parse_emphasis` from src/markdown/span/emphasis.rs: the guard
rejecting a leading `***`, then the two-alternative regex (underscore
alternative starting `\b_`, star alternative starting `\*(?=\S)`),
consuming `t.len() + 2`. -/
def parse_emphasis_raw (s : List Char) : Option (RawSpan × Nat) :=
  if s.take 3 = ['*', '*', '*'] then none
  else
    match s with
    | c :: rest => parse_emphasis_tail c rest
    | [] => none

/-- Embedding of `parse_span` from src/markdown/span/mod.rs: the `pipe_opt!` chain
escape → strong → emphasis → strikethrough → underline. -/
def parse_span_raw (s : List Char) : Option (RawSpan × Nat) :=
  (parse_escape_raw s).orElse fun _ =>
  (parse_strong_raw s).orElse fun _ =>
  (parse_emphasis_raw s).orElse fun _ =>
  (parse_strikethrough_raw s).orElse fun _ =>
  parse_underline_raw s

/-- Embedding of `Vec<Span>` with `Span` from src/markdown/mod.rs, de-nested: the
vector and the `Span` sum type are fused into one first-order inductive
(`nil`/"cons a Text"/"cons a Literal"/"cons a delimited span"), so that
every function over span trees is plain structural recursion.  A Rust
`Span::Emphasis(v)` etc. is `tagged .emphasis v' rest` where `v'` is the
embedding of `v` and `rest` the remainder of the enclosing vector. -/
inductive Spans where
  | nil
  | text (s : List Char) (rest : Spans)
  | literal (c : Char) (rest : Spans)
  | tagged (t : SpanTag) (children : Spans) (rest : Spans)
deriving DecidableEq

/-- Concatenation of two span vectors. -/
def Spans.append : Spans → Spans → Spans
  | .nil, ys => ys
  | .text s r, ys => .text s (r.append ys)
  | .literal c r, ys => .literal c (r.append ys)
  | .tagged t cs r, ys => .tagged t cs (r.append ys)

/-- Emptiness of a span vector (`Vec::is_empty`). -/
def Spans.isNil : Spans → Bool
  | .nil => true
  | _ => false

mutual

/-- Embedding of `parse_spans` from src/markdown/span/mod.rs, fuelled.  One unit of
fuel is spent per loop iteration and per recursive descent, which the
sufficiency theorem for claim C10 shows never runs out starting from
`content.length + 1`. -/
def parse_spans_f : Nat → List Char → Spans
  | 0, _ => .nil
  | fuel + 1, content => psGo fuel content .nil []

/-- The scanning loop of `parse_spans`: `tokens` is the output vector,
`t` the pending `Text` accumulator.  On a match the pending text is
pushed (trimmed at the start if it is the very first token), the matcher
result is pushed with its inner text parsed recursively, and the index
advances by `consumed`; otherwise the next character joins `t`.  At the
end a nonempty `t` is pushed with start trim (if first) and end trim. -/
def psGo : Nat → List Char → Spans → List Char → Spans
  | _, [], tokens, t =>
    if t.isEmpty then tokens
    else tokens.append
      (.text (trimEndL (if tokens.isNil then trimStartL t else t)) .nil)
  | 0, _ :: _, tokens, _ => tokens
  | fuel + 1, l@(c :: rest), tokens, t =>
    match parse_span_raw l with
    | some (raw, consumed) =>
      let tokens :=
        if t.isEmpty then tokens
        else tokens.append (.text (if tokens.isNil then trimStartL t else t) .nil)
      let s : Spans :=
        match raw with
        | .lit ch => .literal ch .nil
        | .tagged tag inner => .tagged tag (parse_spans_f fuel inner) .nil
      psGo fuel (l.drop consumed) (tokens.append s) []
    | none => psGo fuel rest tokens (t ++ [c])

end

/-- Embedding of `parse_spans` as called by the rest of the program, with sufficient
fuel. -/
def parse_spans (content : List Char) : Spans :=
  parse_spans_f (content.length + 1) content

/-! ## MarkdownParser: block level from src/markdown/block/ -/

/-- Embedding of `Vec<Block>` with `Block` from src/markdown/mod.rs, de-nested like
`Spans`: `paragraph v rest` is a `Block::Paragraph(v)` followed by the
rest of the enclosing vector, `blockquote bs rest` a
`Block::Blockquote(bs)`. -/
inductive Blocks where
  | nil
  | paragraph (spans : Spans) (rest : Blocks)
  | blockquote (inner : Blocks) (rest : Blocks)
deriving DecidableEq

/-- Concatenation of two block vectors. -/
def Blocks.append : Blocks → Blocks → Blocks
  | .nil, ys => ys
  | .paragraph s r, ys => .paragraph s (r.append ys)
  | .blockquote i r, ys => .blockquote i (r.append ys)

/-- Rust `str::lines()`: split on the newline character; the fragment
after a trailing newline is dropped; a trailing carriage return is
stripped from each line. -/
def splitLines (s : List Char) : List (List Char) :=
  let parts := splitChar nlChar s
  let parts := if parts.getLast? = some [] then parts.dropLast else parts
  parts.map fun l => if l.getLast? = some (Char.ofNat 13) then l.dropLast else l

/-- The scan of `parse_blockquote` from src/markdown/block/blockquote.rs:
the leading-line guard, then the `for` loop collecting quote content
(stripping `> ` or `>` prefixes and joining with newlines) until a
non-empty, non-quoted line that follows an empty line.  Returns the
joined content and the number of consumed lines. -/
def bqStart : List Char → Nat
  | '>' :: ' ' :: _ => 2
  | '>' :: _ => 1
  | _ => 0

def bqLoop : List (List Char) → Bool → List Char → Nat → (List Char × Nat)
  | [], _, content, idx => (content, idx)
  | l :: rest, prevNl, content, idx =>
    if prevNl ∧ ¬l.isEmpty ∧ l.head? ≠ some '>' then (content, idx)
    else
      bqLoop rest l.isEmpty
        ((if idx > 0 then content ++ [nlChar] else content) ++ l.drop (bqStart l))
        (idx + 1)

/-- The guard and loop of `parse_blockquote`, without the recursive
`parse_blocks` call on the collected content. -/
def bq_scan (lines : List (List Char)) : Option (List Char × Nat) :=
  match lines with
  | [] => none
  | l :: _ =>
    if l.isEmpty ∨ l.head? ≠ some '>' then none
    else
      let (content, idx) := bqLoop lines false [] 0
      if idx > 0 then some (content, idx) else none

/-- The loop of `parse_blocks` from src/markdown/block/mod.rs, fuelled
(one unit per processed group of lines and per blockquote recursion):
`blocks` is the output, `t` the spans of the current paragraph.  A blockquote
match flushes the paragraph and recursively parses the collected quote
content; otherwise an empty line flushes the paragraph, the spans of the line
are appended with a `"\n"` text between two nonempty stretches. -/
def pbGo : Nat → List (List Char) → Blocks → Spans → Blocks
  | _, [], blocks, t =>
    if t.isNil then blocks else blocks.append (.paragraph t .nil)
  | 0, _ :: _, blocks, t =>
    if t.isNil then blocks else blocks.append (.paragraph t .nil)
  | fuel + 1, ls@(l :: rest), blocks, t =>
    match bq_scan ls with
    | some (content, consumed) =>
      let blocks := if t.isNil then blocks else blocks.append (.paragraph t .nil)
      pbGo fuel (ls.drop consumed)
        (blocks.append (.blockquote (pbGo fuel (splitLines content) .nil .nil) .nil))
        .nil
    | none =>
      let blocks :=
        if l.isEmpty ∧ ¬t.isNil then blocks.append (.paragraph t .nil) else blocks
      let t := if l.isEmpty ∧ ¬t.isNil then Spans.nil else t
      let spans := parse_spans l
      let t :=
        if spans.isNil then t
        else if t.isNil then spans
        else (t.append (.text [nlChar] .nil)).append spans
      pbGo fuel rest blocks t

/-- Embedding of `parse_blocks` from src/markdown/block/mod.rs, fuelled. -/
def parse_blocks_f (fuel : Nat) (content : List Char) : Blocks :=
  pbGo fuel (splitLines content) .nil .nil

/-- Embedding of `parse_blockquote` from src/markdown/block/blockquote.rs, fuelled for
its recursive `parse_blocks` call.  The returned single block is
represented as a one-element block vector. -/
def parse_blockquote_f (fuel : Nat) (lines : List (List Char)) :
    Option (Blocks × Nat) :=
  (bq_scan lines).map fun pr =>
    (.blockquote (parse_blocks_f fuel pr.1) .nil, pr.2)

/-- Embedding of `parse` from src/markdown/mod.rs, with sufficient fuel: each
blockquote recursion strips at least the leading `>` of its first line,
so the nesting depth (and with it the number of fuelled steps along any
recursion chain) is bounded by the content length. -/
def mdparse (content : List Char) : Blocks :=
  parse_blocks_f (content.length + 1) content

/-! ## MinecraftFormatRenderer from src/markdown/mod.rs -/

/-- The format tag constants of src/markdown/mod.rs. -/
def EMPHASIS_TAG : List Char := lstr "§o"

def RESET_TAG : List Char := lstr "§r"

def STRIKETHROUGH_TAG : List Char := lstr "§m"

def STRONG_TAG : List Char := lstr "§l"

def UNDERLINE_TAG : List Char := lstr "§n"

/-- Rust `str::ends_with(pat)`. -/
def endsWithL (l pat : List Char) : Bool := pat.reverse.isPrefixOf l.reverse

/-- The tag a span variant opens, per `Span::to_minecraft`. -/
def SpanTag.code : SpanTag → List Char
  | .emphasis => EMPHASIS_TAG
  | .strong => STRONG_TAG
  | .strikethrough => STRIKETHROUGH_TAG
  | .underline => UNDERLINE_TAG

/-- Embedding of `format_spans` and `Span::to_minecraft` from src/markdown/mod.rs as
one structural loop over the span vector (`Span::to_minecraft` is
inlined as the case of the leading constructor): `tags` is the `open_tags`
vector threaded by mutable reference in the source and `ret` the
accumulated output.  After appending the text of an element, if `open_tags`
is nonempty and `ret` ends with the reset tag, one tag is popped and the
remaining open tags are re-emitted. -/
def format_spans_go : Spans → List (List Char) → List Char →
    (List Char × List (List Char))
  | .nil, tags, ret => (ret, tags)
  | .text s es, tags, ret =>
    let ret := ret ++ s
    if ¬tags.isEmpty ∧ endsWithL ret RESET_TAG then
      format_spans_go es tags.dropLast (ret ++ tags.dropLast.flatten)
    else format_spans_go es tags ret
  | .literal c es, tags, ret =>
    let ret := ret ++ [c]
    if ¬tags.isEmpty ∧ endsWithL ret RESET_TAG then
      format_spans_go es tags.dropLast (ret ++ tags.dropLast.flatten)
    else format_spans_go es tags ret
  | .tagged tag cs es, tags, ret =>
    let r := format_spans_go cs (tags ++ [tag.code]) []
    let ret := ret ++ (tag.code ++ r.1 ++ RESET_TAG)
    let tags := r.2
    if ¬tags.isEmpty ∧ endsWithL ret RESET_TAG then
      format_spans_go es tags.dropLast (ret ++ tags.dropLast.flatten)
    else format_spans_go es tags ret

/-- Embedding of `format_spans` from src/markdown/mod.rs. -/
def format_spans (elements : Spans) (open_tags : List (List Char)) : List Char :=
  (format_spans_go elements open_tags []).1

/-- Embedding of `to_minecraft_format`, `format_paragraph` and `format_blockquote`
from src/markdown/mod.rs. -/
def to_minecraft_format : Blocks → List Char
  | .nil => []
  | .paragraph spans bs => format_spans spans [] ++ to_minecraft_format bs
  | .blockquote inner bs =>
    (lstr "> " ++ to_minecraft_format inner) ++ to_minecraft_format bs

/-! ## LogLineClassifier: `MessageParser` from src/listener/parser.rs

The `fancy_regex` chat pattern and the asynchronous Mojang lookup are
external collaborators of the classifier; they are modelled as oracle
parameters (`ChatRegex`, `mojang`).  A Rust panic (a failed `expect` or
an out-of-bounds index) is modelled as `Except.error` carrying the
panic message, so that `.ok` results are exactly the non-panicking
executions. -/

/-- Embedding of `Source` from src/listener/parser.rs. -/
inductive Source where
  | player
  | server
deriving DecidableEq

/-- Embedding of `MinecraftMessage` from src/listener/parser.rs. -/
structure MinecraftMessage where
  name : List Char
  content : List Char
  source : Source
  uuid : List Char
deriving DecidableEq

/-- The compiled configured chat pattern, as an oracle: whether it
matches a line, and the result of running `captures` on the line
(`none` = no match found; otherwise the optional `username` and
`content` named groups). -/
structure ChatRegex where
  is_match : List Char → Bool
  captures : List Char → Option (Option (List Char) × Option (List Char))

/-- The `cached_uuids` HashMap, as an association list with distinct
keys. -/
abbrev Cache : Type := List (List Char × List Char)

/-- Embedding of `HashMap::insert` (replacing any previous binding of the key). -/
def cacheInsert (k v : List Char) (m : Cache) : Cache :=
  (k, v) :: List.filter (fun p => decide (p.1 ≠ k)) m

/-- Embedding of `HashMap::remove`. -/
def cacheRemove (k : List Char) (m : Cache) : Cache :=
  List.filter (fun p => decide (p.1 ≠ k)) m

/-- Embedding of `HashMap::get`. -/
def cacheGet (k : List Char) (m : Cache) : Option (List Char) :=
  (List.find? (fun p => decide (p.1 = k)) m).map Prod.snd

/-- The built-in death keywords of `MessageParser::new`. -/
def default_death_keywords : List (List Char) :=
  [lstr " shot", lstr " pricked", lstr " walked into a cactus",
   lstr " roasted", lstr " drowned", lstr " kinetic", lstr " blew up",
   lstr " blown up", lstr " killed", lstr " hit the ground", lstr " fell",
   lstr " doomed", lstr " squashed", lstr " magic", lstr " flames",
   lstr " burned", lstr " walked into fire", lstr " burnt", lstr " bang",
   lstr " tried to swim in lava", lstr " lightning", lstr "floor was lava",
   lstr "danger zone", lstr " slain", lstr " fireballed", lstr " stung",
   lstr " starved", lstr " suffocated", lstr " squished", lstr " poked",
   lstr " imapled", lstr "didn" ++ [apostropheChar] ++ lstr "t want to live",
   lstr " withered", lstr " pummeled", lstr " died", lstr " slain",
   lstr " obliterated"]

/-- The built-in ignore phrase of `MessageParser::new`. -/
def default_ignore_phrases : List (List Char) :=
  [lstr "Found that the dragon has been killed in this world already."]

/-- Embedding of `trim_prefix` from src/listener/parser.rs: reject lines that do not
start with `[` or are shorter than 11 bytes, then return the text after
the first `"]: "`. -/
def trim_prefix (line : List Char) : Option (List Char) :=
  if line.head? ≠ some '[' ∨ utf8Len line < 11 then none
  else
    match findSubIdx (lstr "]: ") line with
    | some index => some (line.drop (index + 3))
    | none => none

/-- Embedding of `is_advancement` from src/listener/parser.rs. -/
def is_advancement (line : List Char) : Bool :=
  containsSub line (lstr "has made the advancement") ||
  containsSub line (lstr "has completed the challenge") ||
  containsSub line (lstr "has reached the goal")

/-- Embedding of `MessageParser::try_parse_death` from src/listener/parser.rs,
fuelled for its `"Named entity"` recursion (each step recurses on the
text after the first colon, a strict substring, so `line.length + 1`
fuel is always sufficient).  The death-keyword scan keeps overwriting
the result, reproducing the last-match-wins loop of the source. -/
def try_parse_death (fuel : Nat) (death_keywords ignore_phrases : List (List Char))
    (line : List Char) : Option MinecraftMessage :=
  match fuel with
  | 0 => none
  | fuel + 1 =>
    if ignore_phrases.any (fun p => containsSub line p) then none
    else if (lstr "Named entity").isPrefixOf line then
      match splitChar ':' line with
      | _ :: second :: _ =>
        try_parse_death fuel death_keywords ignore_phrases (trimStartL second)
      | _ => none
    else
      death_keywords.foldl
        (fun message word =>
          if containsSub line word then
            some ⟨[], lstr ":skull: " ++ line, .server, []⟩
          else message)
        none

/-- Embedding of `MessageParser::get_player_uuid` from src/listener/parser.rs: cache
hit, else Mojang lookup by name (an oracle returning the response's
`name` and `id` fields on success), caching the response on success;
`Except.error ()` stands for both error variants, which the caller maps
to the same fallback. -/
def get_player_uuid (cache : Cache) (mojang : List Char → Option (List Char × List Char))
    (name : List Char) : Except Unit (List Char) × Cache :=
  match cacheGet name cache with
  | some uuid => (.ok uuid, cache)
  | none =>
    match mojang name with
    | some resp => (.ok resp.2, cacheInsert resp.1 resp.2 cache)
    | none => (.error (), cache)

/-- Embedding of `MessageParser::try_parse_chat` from src/listener/parser.rs.  The
`expect` calls on the missing captures or missing named groups are
panics, modelled as errors. -/
def try_parse_chat (cache : Cache) (rx : ChatRegex)
    (mojang : List Char → Option (List Char × List Char)) (line : List Char) :
    Except (List Char) (Option MinecraftMessage × Cache) :=
  match rx.captures line with
  | none => .error (lstr "line matched, but captures not found")
  | some (u, c) =>
    match u with
    | none => .error (lstr "log message matched chat regex, but there is no username")
    | some name =>
      match c with
      | none => .error (lstr "log message matched chat regex, but there is no content")
      | some content =>
        let r := get_player_uuid cache mojang name
        let uuid :=
          match r.1 with
          | .ok uuid => uuid
          | .error _ => lstr "c06f8906-4c8a-4911-9c29-ea1dbd1aab82"
        .ok (some ⟨name, content, .player, uuid⟩, r.2)

/-- Embedding of `MessageParser::parse_line` from src/listener/parser.rs.  The
positional indexing `parts[3]`/`parts[5]` of the `"UUID of player"`
branch panics (modelled as an error) when the split has too few
fragments. -/
def parse_line (cache : Cache) (death_keywords ignore_phrases : List (List Char))
    (rx : ChatRegex) (mojang : List Char → Option (List Char × List Char))
    (rawLine : List Char) : Except (List Char) (Option MinecraftMessage × Cache) :=
  match trim_prefix rawLine with
  | none => .ok (none, cache)
  | some stripped =>
    let line := trimL stripped
    if (lstr "Villager").isPrefixOf line ∧ containsSub line (lstr "died, message:") then
      .ok (none, cache)
    else if (lstr "UUID of player").isPrefixOf line then
      let parts := splitChar ' ' line
      match parts.get? 3 with
      | none => .error (lstr "index out of bounds")
      | some name =>
        match parts.get? 5 with
        | none => .error (lstr "index out of bounds")
        | some uuid => .ok (none, cacheInsert name uuid cache)
    else if rx.is_match line then try_parse_chat cache rx mojang line
    else if containsSub line (lstr "joined the game") ∨
        containsSub line (lstr "left the game") then
      let cache :=
        if containsSub line (lstr "left the game") then
          match findSpace line with
          | some e => cacheRemove (line.take e) cache
          | none => cache
        else cache
      .ok (some ⟨[], line, .server, []⟩, cache)
    else if is_advancement line then
      .ok (some ⟨[], lstr ":partying_face: " ++ line, .server, []⟩, cache)
    else if (lstr "Done (").isPrefixOf line then
      .ok (some ⟨[], lstr ":white_check_mark: Server has started", .server, []⟩, cache)
    else if (lstr "Stopping the server").isPrefixOf line then
      .ok (some ⟨[], lstr ":x: Server is shutting down", .server, []⟩, cache)
    else
      .ok (try_parse_death (line.length + 1) death_keywords ignore_phrases line, cache)

/-- A chat pattern that matches nothing (used to instantiate theorems at
concrete inputs whose lines are not chat messages). -/
def rxNone : ChatRegex := ⟨fun _ => false, fun _ => none⟩

/-- A Mojang lookup oracle that always fails. -/
def mojangNone : List Char → Option (List Char × List Char) := fun _ => none

/-! ## Lemmas about the chunker -/

theorem takeBytes_append : ∀ (n : Nat) (l p r : List Char),
    takeBytes n l = some (p, r) → p ++ r = l := by
  intro n l
  induction l generalizing n with
  | nil =>
    intro p r h
    cases n with
    | zero => simp [takeBytes] at h; simp [h.1, h.2]
    | succ n => simp [takeBytes] at h
  | cons c rest ih =>
    intro p r h
    cases n with
    | zero =>
      simp [takeBytes] at h
      simp [← h.1, ← h.2]
    | succ n =>
      rw [takeBytes] at h
      split at h
      · rw [Option.map_eq_some'] at h
        obtain ⟨⟨p', r'⟩, hr, hpr⟩ := h
        obtain ⟨hp, hrr⟩ := Prod.mk.injEq .. ▸ hpr
        subst hrr
        rw [← hp]
        simpa using ih _ _ _ hr
      · exact absurd h (by simp)

theorem takeBytes_utf8Len : ∀ (n : Nat) (l p r : List Char),
    takeBytes n l = some (p, r) → utf8Len p = n := by
  intro n l
  induction l generalizing n with
  | nil =>
    intro p r h
    cases n with
    | zero =>
      simp [takeBytes] at h
      rw [h.1]
      rfl
    | succ n => simp [takeBytes] at h
  | cons c rest ih =>
    intro p r h
    cases n with
    | zero =>
      simp [takeBytes] at h
      rw [h.1]
      rfl
    | succ n =>
      rw [takeBytes] at h
      split at h
      next hsz =>
        rw [Option.map_eq_some'] at h
        obtain ⟨⟨p', r'⟩, hr, hpr⟩ := h
        obtain ⟨hp, _⟩ := Prod.mk.injEq .. ▸ hpr
        have := ih _ _ _ hr
        rw [← hp]
        simp only [utf8Len, List.foldr] at this ⊢
        omega
      · exact absurd h (by simp)

theorem takeBytes_ne_nil (n : Nat) (c : Char) (rest p r : List Char)
    (h : takeBytes (n + 1) (c :: rest) = some (p, r)) : p ≠ [] := by
  rw [takeBytes] at h
  split at h
  · rw [Option.map_eq_some'] at h
    obtain ⟨⟨p', r'⟩, _, hpr⟩ := h
    obtain ⟨hp, _⟩ := Prod.mk.injEq .. ▸ hpr
    rw [← hp]
    simp
  · exact absurd h (by simp)

theorem takeBytes_none_of_short : ∀ (n : Nat) (l : List Char),
    utf8Len l < n → takeBytes n l = none := by
  intro n l
  induction l generalizing n with
  | nil =>
    intro h
    cases n with
    | zero => simp [utf8Len] at h
    | succ n => rfl
  | cons c rest ih =>
    intro h
    cases n with
    | zero => simp at h
    | succ n =>
      have hpos := Char.utf8Size_pos c
      have hle : c.utf8Size ≤ n + 1 := by
        simp only [utf8Len, List.foldr] at h
        have : 0 ≤ utf8Len rest := Nat.zero_le _
        simp only [utf8Len] at this
        omega
      rw [takeBytes, if_pos hle, ih]
      · rfl
      · simp only [utf8Len, List.foldr] at h ⊢
        omega

theorem utf8Len_append (p r : List Char) :
    utf8Len (p ++ r) = utf8Len p + utf8Len r := by
  induction p with
  | nil => simp [utf8Len]
  | cons c rest ih =>
    simp only [utf8Len, List.foldr, List.cons_append, List.append_eq] at ih ⊢
    omega

theorem utf8Len_eq_nil (l : List Char) (h : utf8Len l = 0) : l = [] := by
  cases l with
  | nil => rfl
  | cons c rest =>
    have := Char.utf8Size_pos c
    simp only [utf8Len, List.foldr] at h
    omega

theorem ttGo_flatten : ∀ (fuel : Nat) (l : List Char),
    l.length < fuel → (ttGo fuel l).flatten = l := by
  intro fuel
  induction fuel with
  | zero => intro l h; omega
  | succ fuel ih =>
    intro l h
    cases l with
    | nil => rfl
    | cons c rest =>
      rw [ttGo]
      cases htb : takeBytes MAX_LINE_LENGTH (c :: rest) with
      | none => simp
      | some pr =>
        obtain ⟨p, r⟩ := pr
        have happ := takeBytes_append _ _ _ _ htb
        have hne := takeBytes_ne_nil 99 c rest p r htb
        have hlen : r.length < fuel := by
          have : p.length + r.length = rest.length + 1 := by
            have := congrArg List.length happ
            simpa using this
          have : 1 ≤ p.length := by
            cases p with
            | nil => exact absurd rfl hne
            | cons _ _ => simp
          simp only [List.length_cons] at h
          omega
        simpa [ih r hlen] using happ

/-- Each chunk of a single line is 100 bytes (a successful
`line.get(..100)`) or a final remainder on which the 100-byte split
fails.  -/
theorem ttGo_mem : ∀ (fuel : Nat) (l c : List Char), c ∈ ttGo fuel l →
    utf8Len c = MAX_LINE_LENGTH ∨ takeBytes MAX_LINE_LENGTH c = none := by
  intro fuel
  induction fuel with
  | zero => intro l c h; simp [ttGo] at h
  | succ fuel ih =>
    intro l c h
    cases l with
    | nil => simp [ttGo] at h
    | cons c₀ rest =>
      rw [ttGo] at h
      cases htb : takeBytes MAX_LINE_LENGTH (c₀ :: rest) with
      | none =>
        rw [htb] at h
        simp at h
        subst h
        exact Or.inr htb
      | some pr =>
        obtain ⟨p, r⟩ := pr
        rw [htb] at h
        simp only [List.mem_cons] at h
        rcases h with h | h
        · subst h
          exact Or.inl (takeBytes_utf8Len _ _ _ _ htb)
        · exact ih r c h

theorem truncate_lines_flatMap : ∀ ls : List (List Char),
    truncate_lines ls = (ls.map truncate_line).flatten := by
  intro ls
  induction ls with
  | nil => rfl
  | cons l rest ih => simp [truncate_lines, ih]

theorem ttGo_nil : ∀ fuel : Nat, ttGo fuel [] = [] := by
  intro fuel; cases fuel <;> rfl

theorem takeBytes_ones : ∀ (n : Nat) (l : List Char),
    (∀ ch ∈ l, ch.utf8Size = 1) → n ≤ l.length →
    takeBytes n l = some (l.take n, l.drop n) := by
  intro n
  induction n with
  | zero => intro l _ _; simp [takeBytes]
  | succ n ih =>
    intro l hones hlen
    cases l with
    | nil => simp at hlen
    | cons c rest =>
      have hc : c.utf8Size = 1 := hones c (by simp)
      rw [takeBytes, if_pos (by omega)]
      rw [hc]
      simp only [Nat.add_sub_cancel]
      rw [ih rest (fun ch hch => hones ch (by simp [hch])) (by simpa using hlen)]
      simp

theorem utf8Len_ones : ∀ l : List Char,
    (∀ ch ∈ l, ch.utf8Size = 1) → utf8Len l = l.length := by
  intro l
  induction l with
  | nil => intro _; rfl
  | cons c rest ih =>
    intro hones
    have hc : c.utf8Size = 1 := hones c (by simp)
    have := ih fun ch hch => hones ch (by simp [hch])
    simp only [utf8Len, List.foldr, List.length_cons] at this ⊢
    omega

/-! ## Lemmas about the UUID cache and string helpers -/

/-- The cache invariant: at most one entry per name. -/
def NodupKeys (m : Cache) : Prop := (m.map Prod.fst).Nodup

theorem cacheGet_insert (k v : List Char) (m : Cache) :
    cacheGet k (cacheInsert k v m) = some v := by
  simp [cacheGet, cacheInsert, List.find?]

theorem find?_filter_ne (k : List Char) (m : Cache) :
    List.find? (fun p => decide (p.1 = k))
      (List.filter (fun p => decide (p.1 ≠ k)) m) = none := by
  induction m with
  | nil => rfl
  | cons a rest ih =>
    by_cases h : a.1 = k
    · simp [List.filter, h, ih]
    · simp [List.filter, h, List.find?, ih]

theorem cacheGet_remove (k : List Char) (m : Cache) :
    cacheGet k (cacheRemove k m) = none := by
  simp [cacheGet, cacheRemove, find?_filter_ne]

theorem nodupKeys_filter (f : List Char × List Char → Bool) (m : Cache)
    (h : NodupKeys m) : NodupKeys (List.filter f m) :=
  List.Nodup.sublist (List.Sublist.map _ (List.filter_sublist m)) h

theorem nodupKeys_remove (k : List Char) (m : Cache) (h : NodupKeys m) :
    NodupKeys (cacheRemove k m) := nodupKeys_filter _ m h

theorem nodupKeys_insert (k v : List Char) (m : Cache) (h : NodupKeys m) :
    NodupKeys (cacheInsert k v m) := by
  refine List.Nodup.cons ?_ (nodupKeys_filter _ m h)
  intro hmem
  rw [List.mem_map] at hmem
  obtain ⟨p, hp, hpk⟩ := hmem
  rw [List.mem_filter] at hp
  exact absurd hpk (by simpa using hp.2)

theorem isPrefixOf_first (a b : Char) (as bs l : List Char)
    (ha : (a :: as).isPrefixOf l = true) (hb : (b :: bs).isPrefixOf l = true) :
    a = b := by
  cases l with
  | nil => simp [List.isPrefixOf] at ha
  | cons c rest =>
    simp only [List.isPrefixOf_cons₂, Bool.and_eq_true, beq_iff_eq] at ha hb
    exact ha.1.trans hb.1.symm

theorem containsSub_mem (l pat : List Char) (c : Char)
    (h : containsSub l pat = true) (hc : c ∈ pat) : c ∈ l := by
  induction l with
  | nil =>
    rw [containsSub] at h
    simp only [Bool.or_false] at h
    have := List.IsPrefix.subset (List.isPrefixOf_iff_prefix.mp h)
    exact this hc
  | cons a rest ih =>
    rw [containsSub] at h
    rcases Bool.or_eq_true .. ▸ h with h | h
    · exact List.IsPrefix.subset (List.isPrefixOf_iff_prefix.mp h) hc
    · exact List.mem_cons_of_mem a (ih h)

theorem findSpace_of_mem : ∀ l : List Char, ' ' ∈ l →
    ∃ e, findSpace l = some e := by
  intro l
  induction l with
  | nil => intro h; simp at h
  | cons c rest ih =>
    intro h
    by_cases hc : c = ' '
    · exact ⟨0, by simp [findSpace, hc]⟩
    · have : ' ' ∈ rest := by
        rcases List.mem_cons.mp h with h | h
        · exact absurd h.symm hc
        · exact h
      obtain ⟨e, he⟩ := ih this
      exact ⟨e + 1, by simp [findSpace, hc, he]⟩

theorem take_findSpace : ∀ (l : List Char) (e : Nat), findSpace l = some e →
    l.take e = l.takeWhile (fun c => decide (c ≠ ' ')) := by
  intro l
  induction l with
  | nil => intro e h; simp [findSpace] at h
  | cons c rest ih =>
    intro e h
    by_cases hc : c = ' '
    · rw [findSpace] at h
      rw [if_pos hc] at h
      obtain rfl : (0 : Nat) = e := Option.some.injEq .. ▸ h
      simp [List.takeWhile, hc]
    · rw [findSpace] at h
      rw [if_neg hc] at h
      rw [Option.map_eq_some'] at h
      obtain ⟨e', he', hee⟩ := h
      subst hee
      simp [List.takeWhile, hc, List.take_succ_cons, ih e' he']

/-- Claim C4: for every line, concatenating the chunks the chunker
produces reproduces the line exactly (so in the byte view no chunk
boundary falls inside a multi-byte codepoint), the chunks of a list of
lines are those of each line in input order, and an empty line yields
zero chunks. -/
theorem c4_chunker_rejoin :
    (∀ l : List Char, (truncate_line l).flatten = l) ∧
    (∀ ls : List (List Char), truncate_lines ls = (ls.map truncate_line).flatten) ∧
    truncate_line [] = [] :=
  ⟨fun l => ttGo_flatten _ l (Nat.lt_succ_self _), truncate_lines_flatMap, rfl⟩

/-- Claim C3, counterexample to the claim as stated: a line of 99 `a`s,
one two-byte character (U+00E9) and two `b`s is 102 characters long, and
because byte offset 100 falls inside the two-byte character the chunker
emits the entire line as one chunk of 102 characters — more than the 100
characters the claim allows. -/
theorem c3_counterexample :
    truncate_lines [List.replicate 99 'a' ++ [Char.ofNat 233, 'b', 'b']] =
      [List.replicate 99 'a' ++ [Char.ofNat 233, 'b', 'b']] ∧
    100 < (List.replicate 99 'a' ++ [Char.ofNat 233, 'b', 'b']).length :=
  ⟨by decide, by decide⟩

/-- Claim C3 as amended: `max_len` counts UTF-8 bytes, not characters.
Every chunk is at most 100 bytes long unless byte offset 100 of the
remaining line falls inside a multi-byte character, in which case the
whole remainder becomes one (possibly longer) chunk; a 114-character
line of single-byte characters yields exactly the 100-byte prefix and
the 14-byte remainder; a nonempty line of at most 100 bytes yields
exactly one chunk equal to the line. -/
theorem c3_chunk_bounds_amended :
    (∀ (ls : List (List Char)) (c : List Char), c ∈ truncate_lines ls →
      utf8Len c ≤ MAX_LINE_LENGTH ∨ takeBytes MAX_LINE_LENGTH c = none) ∧
    (∀ l : List Char, l.length = 114 → (∀ ch ∈ l, ch.utf8Size = 1) →
      truncate_line l = [l.take 100, l.drop 100]) ∧
    (∀ l : List Char, l ≠ [] → utf8Len l ≤ MAX_LINE_LENGTH →
      truncate_line l = [l]) := by
  refine ⟨?_, ?_, ?_⟩
  · intro ls c hmem
    rw [truncate_lines_flatMap] at hmem
    rw [List.mem_flatten] at hmem
    obtain ⟨chunks, hchunks, hc⟩ := hmem
    rw [List.mem_map] at hchunks
    obtain ⟨l, _, hl⟩ := hchunks
    subst hl
    rcases ttGo_mem _ l c hc with h | h
    · exact Or.inl (le_of_eq h)
    · exact Or.inr h
  · intro l hlen hones
    have h100 : takeBytes MAX_LINE_LENGTH l = some (l.take 100, l.drop 100) :=
      takeBytes_ones 100 l hones (by omega)
    have hdlen : (l.drop 100).length = 14 := by simp [hlen]
    obtain ⟨d, ds, hds⟩ : ∃ d ds, l.drop 100 = d :: ds := by
      cases hd : l.drop 100 with
      | nil => rw [hd] at hdlen; simp at hdlen
      | cons d ds => exact ⟨d, ds, rfl⟩
    have hshort : takeBytes MAX_LINE_LENGTH (d :: ds) = none := by
      rw [← hds]
      apply takeBytes_none_of_short
      rw [utf8Len_ones _ fun ch hch => hones ch (List.mem_of_mem_drop hch), hdlen]
      simp [MAX_LINE_LENGTH]
    obtain ⟨c, rest, hcr⟩ : ∃ c rest, l = c :: rest := by
      cases l with
      | nil => simp at hlen
      | cons c rest => exact ⟨c, rest, rfl⟩
    subst hcr
    simp only [truncate_line, List.length_cons, ttGo, h100]
    rw [hds]
    simp only [ttGo, hshort]
  · intro l hne hlen
    obtain ⟨c, rest, hcr⟩ : ∃ c rest, l = c :: rest := by
      cases l with
      | nil => exact absurd rfl hne
      | cons c rest => exact ⟨c, rest, rfl⟩
    subst hcr
    cases htb : takeBytes MAX_LINE_LENGTH (c :: rest) with
    | none => simp only [truncate_line, List.length_cons, ttGo, htb]
    | some pr =>
      obtain ⟨p, r⟩ := pr
      have hp100 := takeBytes_utf8Len _ _ _ _ htb
      have happ := takeBytes_append _ _ _ _ htb
      have hr0 : utf8Len r = 0 := by
        have := utf8Len_append p r
        rw [happ] at this
        simp only [MAX_LINE_LENGTH] at hp100 hlen
        omega
      have hrnil : r = [] := utf8Len_eq_nil r hr0
      subst hrnil
      have hpl : p = c :: rest := by rw [← happ, List.append_nil]
      simp only [truncate_line, List.length_cons, ttGo, htb, ttGo_nil, hpl]

/-- Witness for the amended claim C3 at a concrete input: a line of 114
ASCII characters is split into its 100-character prefix and
14-character remainder. -/
theorem c3_chunk_bounds_amended_witness :
    ((List.replicate 114 'a').length = 114 ∧
      (∀ ch ∈ List.replicate 114 'a', ch.utf8Size = 1)) ∧
    truncate_line (List.replicate 114 'a') =
      [(List.replicate 114 'a').take 100, (List.replicate 114 'a').drop 100] :=
  ⟨⟨by decide, by decide⟩,
    c3_chunk_bounds_amended.2.1 (List.replicate 114 'a') (by decide) (by decide)⟩

/-! ## Claim C5: the "UUID of player" branch -/

/-- String literals spelled as cons cells, for first-character arguments. -/
theorem lstr_villager : lstr "Villager" = 'V' :: lstr "illager" := rfl

theorem lstr_uuid_of : lstr "UUID of player" = 'U' :: lstr "UID of player" := rfl

/-- Claim C5, counterexample to the claim as stated: the content
`"UUID of player  EbonJaeger is 7f7c909b"` (two spaces after `player`)
has exactly six whitespace-delimited tokens, with `EbonJaeger` the 4th
and `7f7c909b` the 6th, so the claim requires the cache to map
`EbonJaeger` to `7f7c909b`.  The code splits on single spaces
(`line.split(' ')`), sees an empty 4th fragment and `is` as the 6th, and
caches `"" → "is"` instead; `EbonJaeger` is absent from the cache. -/
theorem c5_counterexample :
    parse_line [] default_death_keywords default_ignore_phrases rxNone mojangNone
        (lstr "[12:32:45] [Server thread/INFO]: UUID of player  EbonJaeger is 7f7c909b") =
      .ok (none, [(([] : List Char), lstr "is")]) ∧
    cacheGet (lstr "EbonJaeger") [(([] : List Char), lstr "is")] = none :=
  ⟨by rfl, by rfl⟩

/-- Claim C5 as amended: the tokens are the fragments of splitting the
stripped content on single space characters (Rust `split(' ')`), and the
name/UUID are the 4th and 6th such fragments.  For every line whose
stripped content starts with `"UUID of player"` and splits into at least
six fragments, classification emits no message and afterwards the cache
maps the 4th fragment to the 6th. -/
theorem c5_uuid_cache_amended (cache : Cache) (dk ip : List (List Char))
    (rx : ChatRegex) (mojang : List Char → Option (List Char × List Char))
    (rawLine stripped name uuid : List Char)
    (htrim : trim_prefix rawLine = some stripped)
    (hpre : (lstr "UUID of player").isPrefixOf (trimL stripped) = true)
    (hname : (splitChar ' ' (trimL stripped)).get? 3 = some name)
    (huuid : (splitChar ' ' (trimL stripped)).get? 5 = some uuid) :
    parse_line cache dk ip rx mojang rawLine =
      .ok (none, cacheInsert name uuid cache) ∧
    cacheGet name (cacheInsert name uuid cache) = some uuid := by
  refine ⟨?_, cacheGet_insert name uuid cache⟩
  have hnotv : ¬((lstr "Villager").isPrefixOf (trimL stripped) = true ∧
      containsSub (trimL stripped) (lstr "died, message:") = true) := by
    rintro ⟨hv, -⟩
    rw [lstr_villager] at hv
    rw [lstr_uuid_of] at hpre
    exact absurd (isPrefixOf_first _ _ _ _ _ hv hpre) (by decide)
  rw [parse_line, htrim]
  simp only [if_neg hnotv, if_pos hpre, hname, huuid]

/-- Witness for the amended claim C5 at the example line of the spec. -/
theorem c5_uuid_cache_amended_witness :
    ( trim_prefix (lstr "[19:54:56] [User Authenticator #1/INFO]: UUID of player EbonJaeger is 7f7c909b-24f1-49a4-817f-baa4f4973980") =
        some (lstr "UUID of player EbonJaeger is 7f7c909b-24f1-49a4-817f-baa4f4973980") ∧
      (lstr "UUID of player").isPrefixOf
        (trimL (lstr "UUID of player EbonJaeger is 7f7c909b-24f1-49a4-817f-baa4f4973980")) = true) ∧
    parse_line [] default_death_keywords default_ignore_phrases rxNone mojangNone
        (lstr "[19:54:56] [User Authenticator #1/INFO]: UUID of player EbonJaeger is 7f7c909b-24f1-49a4-817f-baa4f4973980") =
      .ok (none, cacheInsert (lstr "EbonJaeger")
        (lstr "7f7c909b-24f1-49a4-817f-baa4f4973980") []) ∧
    cacheGet (lstr "EbonJaeger")
        (cacheInsert (lstr "EbonJaeger") (lstr "7f7c909b-24f1-49a4-817f-baa4f4973980") []) =
      some (lstr "7f7c909b-24f1-49a4-817f-baa4f4973980") :=
  ⟨⟨by rfl, by rfl⟩,
    c5_uuid_cache_amended [] default_death_keywords default_ignore_phrases
      rxNone mojangNone _ _ _ _ (by rfl) (by rfl) (by rfl) (by rfl)⟩

/-! ## Claim C6: the "left the game" branch -/

/-- Claim C6, counterexample to the claim as stated: the stripped content
`"UUID of player X is Y left the game"` does not match the chat pattern
(an always-failing pattern is configured) and contains
`"left the game"`, so the claim requires a `Server`-sourced message.
The earlier `"UUID of player"` rule wins instead: the line caches
`X → Y` and classification emits no message at all. -/
theorem c6_counterexample :
    containsSub (trimL (lstr "UUID of player X is Y left the game"))
        (lstr "left the game") = true ∧
    rxNone.is_match (trimL (lstr "UUID of player X is Y left the game")) = false ∧
    parse_line [] default_death_keywords default_ignore_phrases rxNone mojangNone
        (lstr "[12:32:45] [Server thread/INFO]: UUID of player X is Y left the game") =
      .ok (none, [(lstr "X", lstr "Y")]) :=
  ⟨by rfl, by rfl, by rfl⟩

/-- Claim C6 as amended: restricted to lines that also escape the two
earlier classification rules (the Villager-death discard and the
`"UUID of player"` cache rule), and with the evicted name being the
prefix of the stripped content before its first space character (the
`line.find(' ')` of the code).  Such a line yields a `Server`-sourced message
whose content is the stripped line text, and afterwards the cache has no
entry for that leading prefix. -/
theorem c6_leave_line_amended (cache : Cache) (dk ip : List (List Char))
    (rx : ChatRegex) (mojang : List Char → Option (List Char × List Char))
    (rawLine stripped : List Char)
    (htrim : trim_prefix rawLine = some stripped)
    (hng : ¬((lstr "Villager").isPrefixOf (trimL stripped) = true ∧
      containsSub (trimL stripped) (lstr "died, message:") = true))
    (hnu : (lstr "UUID of player").isPrefixOf (trimL stripped) = false)
    (hnm : rx.is_match (trimL stripped) = false)
    (hleft : containsSub (trimL stripped) (lstr "left the game") = true) :
    parse_line cache dk ip rx mojang rawLine =
      .ok (some ⟨[], trimL stripped, .server, []⟩,
        cacheRemove ((trimL stripped).takeWhile (fun c => decide (c ≠ ' '))) cache) ∧
    cacheGet ((trimL stripped).takeWhile (fun c => decide (c ≠ ' ')))
      (cacheRemove ((trimL stripped).takeWhile (fun c => decide (c ≠ ' '))) cache) =
      none := by
  refine ⟨?_, cacheGet_remove _ cache⟩
  have hsp : ' ' ∈ trimL stripped :=
    containsSub_mem _ _ ' ' hleft (by decide)
  obtain ⟨e, he⟩ := findSpace_of_mem _ hsp
  have htake := take_findSpace _ e he
  rw [parse_line, htrim]
  simp only [if_neg hng, hnu, Bool.false_eq_true, if_neg (by simp : ¬False),
    if_false, hnm, if_pos (Or.inr hleft), if_pos hleft, he, htake]

/-- Witness for the amended claim C6 at the example line of the spec, starting
from a cache that contains the leaving player. -/
theorem c6_leave_line_amended_witness :
    (containsSub (trimL (lstr "EbonJaeger left the game")) (lstr "left the game") = true ∧
      rxNone.is_match (trimL (lstr "EbonJaeger left the game")) = false) ∧
    parse_line [(lstr "EbonJaeger", lstr "7f7c909b")] default_death_keywords
        default_ignore_phrases rxNone mojangNone
        (lstr "[12:32:45] [Server thread/INFO]: EbonJaeger left the game") =
      .ok (some ⟨[], trimL (lstr "EbonJaeger left the game"), .server, []⟩,
        cacheRemove ((trimL (lstr "EbonJaeger left the game")).takeWhile
          (fun c => decide (c ≠ ' '))) [(lstr "EbonJaeger", lstr "7f7c909b")]) ∧
    cacheGet ((trimL (lstr "EbonJaeger left the game")).takeWhile
        (fun c => decide (c ≠ ' ')))
      (cacheRemove ((trimL (lstr "EbonJaeger left the game")).takeWhile
        (fun c => decide (c ≠ ' '))) [(lstr "EbonJaeger", lstr "7f7c909b")]) = none :=
  ⟨⟨by rfl, by rfl⟩,
    c6_leave_line_amended [(lstr "EbonJaeger", lstr "7f7c909b")]
      default_death_keywords default_ignore_phrases rxNone mojangNone _ _
      (by rfl) (by decide) (by rfl) (by rfl) (by rfl)⟩

/-! ## Claim C7: ignore phrases silence death classification -/

theorem try_parse_death_ignore (fuel : Nat) (dk ip : List (List Char))
    (line : List Char) (hig : ip.any (fun p => containsSub line p) = true) :
    try_parse_death (fuel + 1) dk ip line = none := by
  rw [try_parse_death]
  simp only [if_pos hig]

/-- Claim C7: for every line that reaches death-message classification
(the hypotheses record that every earlier classification rule declined
the line) and whose content contains a configured ignore phrase,
classification returns no message — even when death keywords also occur
in the content. -/
theorem c7_ignore_phrase_discards (cache : Cache) (dk ip : List (List Char))
    (rx : ChatRegex) (mojang : List Char → Option (List Char × List Char))
    (rawLine stripped : List Char)
    (htrim : trim_prefix rawLine = some stripped)
    (h1 : ¬((lstr "Villager").isPrefixOf (trimL stripped) = true ∧
      containsSub (trimL stripped) (lstr "died, message:") = true))
    (h2 : (lstr "UUID of player").isPrefixOf (trimL stripped) = false)
    (h3 : rx.is_match (trimL stripped) = false)
    (h4 : containsSub (trimL stripped) (lstr "joined the game") = false)
    (h5 : containsSub (trimL stripped) (lstr "left the game") = false)
    (h6 : is_advancement (trimL stripped) = false)
    (h7 : (lstr "Done (").isPrefixOf (trimL stripped) = false)
    (h8 : (lstr "Stopping the server").isPrefixOf (trimL stripped) = false)
    (hig : ip.any (fun p => containsSub (trimL stripped) p) = true) :
    parse_line cache dk ip rx mojang rawLine = .ok (none, cache) := by
  rw [parse_line, htrim]
  simp only [if_neg h1, h2, Bool.false_eq_true, if_false, h3, h4, h5, h6, h7, h8,
    if_neg (by simp : ¬(False ∨ False)), try_parse_death_ignore _ dk ip _ hig]

/-- Witness for claim C7: the built-in dragon ignore phrase suppresses a
line that also contains the death keyword `" killed"`. -/
theorem c7_ignore_phrase_discards_witness :
    (default_ignore_phrases.any
        (fun p => containsSub (trimL (lstr "Found that the dragon has been killed in this world already.")) p) = true ∧
      default_death_keywords.any
        (fun w => containsSub (trimL (lstr "Found that the dragon has been killed in this world already.")) w) = true) ∧
    parse_line [] default_death_keywords default_ignore_phrases rxNone mojangNone
        (lstr "[12:32:45] [Server thread/INFO]: Found that the dragon has been killed in this world already.") =
      .ok (none, []) :=
  ⟨⟨by rfl, by rfl⟩,
    c7_ignore_phrase_discards [] default_death_keywords default_ignore_phrases
      rxNone mojangNone _ _ (by rfl) (by decide) (by rfl) (by rfl) (by rfl)
      (by rfl) (by rfl) (by rfl) (by rfl) (by rfl)⟩

/-! ## Claim C2: classification can panic -/

/-- A valid pattern that matches every line but exposes no `username`
named group (e.g. `^(?P<content>.+)` would behave like this). -/
def rxNoUsername : ChatRegex := ⟨fun _ => true, fun l => some (none, some l)⟩

/-- Claim C2, evaluation at the failing inputs: a `"UUID of player"`
line with fewer than six space-separated fragments makes `parse_line`
index `parts[5]` out of bounds (a panic), and a chat pattern that
matches a line but has no `username` capture makes `try_parse_chat`
panic in `expect`.  Both executions are modelled as `Except.error`
carrying the panic, contradicting the claim that classification always
returns `Some` or `None` to the caller. -/
theorem c2_classification_panics :
    parse_line [] default_death_keywords default_ignore_phrases rxNone mojangNone
        (lstr "[12:32:45] [Server thread/INFO]: UUID of player EbonJaeger") =
      .error (lstr "index out of bounds") ∧
    parse_line [] default_death_keywords default_ignore_phrases rxNoUsername
        mojangNone (lstr "[12:32:45] [Server thread/INFO]: hello world") =
      .error (lstr "log message matched chat regex, but there is no username") :=
  ⟨by rfl, by rfl⟩

/-! ## Claim C9: the cache frame property -/

/-- The second cache-mutation case of claim C9: a chat-pattern match
whose `username` capture misses the cache while the external by-name
lookup succeeds. -/
def chatInsertPossible (cache : Cache) (rx : ChatRegex)
    (mojang : List Char → Option (List Char × List Char)) (line : List Char) :
    Bool :=
  rx.is_match line &&
    match rx.captures line with
    | some (some u, some _) => (cacheGet u cache).isNone && (mojang u).isSome
    | _ => false

/-- The three cache-mutation cases of claim C9, as a predicate on the
raw line: a `"UUID of player"` content, a chat match with a successful
lookup on a cache miss, or a `"left the game"` content. -/
def mutationPossible (cache : Cache) (rx : ChatRegex)
    (mojang : List Char → Option (List Char × List Char)) (rawLine : List Char) :
    Bool :=
  match trim_prefix rawLine with
  | none => false
  | some stripped =>
    (lstr "UUID of player").isPrefixOf (trimL stripped) ||
    chatInsertPossible cache rx mojang (trimL stripped) ||
    containsSub (trimL stripped) (lstr "left the game")

/-- Claim C9: whenever classification returns (does not panic), the
cache is unchanged unless the line falls in one of the three mutation
cases (`"UUID of player"` insert, chat-match insert after a successful
lookup on a cache miss, `"left the game"` removal), and the cache never
holds two entries for one name. -/
theorem c9_cache_frame (cache : Cache) (dk ip : List (List Char))
    (rx : ChatRegex) (mojang : List Char → Option (List Char × List Char))
    (rawLine : List Char) (res : Option MinecraftMessage) (cache' : Cache)
    (h : parse_line cache dk ip rx mojang rawLine = .ok (res, cache')) :
    (mutationPossible cache rx mojang rawLine = false → cache' = cache) ∧
    (NodupKeys cache → NodupKeys cache') := by
  cases htp : trim_prefix rawLine with
  | none =>
    rw [parse_line] at h
    simp only [htp, Except.ok.injEq, Prod.mk.injEq] at h
    rw [← h.2]
    exact ⟨fun _ => rfl, fun hn => hn⟩
  | some stripped =>
    rw [parse_line] at h
    simp only [htp] at h
    by_cases hvill : (lstr "Villager").isPrefixOf (trimL stripped) = true ∧
        containsSub (trimL stripped) (lstr "died, message:") = true
    · rw [if_pos hvill] at h
      simp only [Except.ok.injEq, Prod.mk.injEq] at h
      rw [← h.2]
      exact ⟨fun _ => rfl, fun hn => hn⟩
    · rw [if_neg hvill] at h
      by_cases huuid : (lstr "UUID of player").isPrefixOf (trimL stripped) = true
      · rw [if_pos huuid] at h
        cases hg3 : (splitChar ' ' (trimL stripped))[3]? with
        | none => simp [hg3] at h
        | some name =>
          cases hg5 : (splitChar ' ' (trimL stripped))[5]? with
          | none => simp [hg3, hg5] at h
          | some uuid =>
            simp only [List.get?_eq_getElem?, hg3, hg5, Except.ok.injEq,
              Prod.mk.injEq] at h
            refine ⟨fun hm => ?_, fun hn => ?_⟩
            · exfalso
              simp only [mutationPossible, htp] at hm
              simp [huuid] at hm
            · rw [← h.2]
              exact nodupKeys_insert _ _ _ hn
      · rw [if_neg huuid] at h
        by_cases hmatch : rx.is_match (trimL stripped) = true
        · rw [if_pos hmatch, try_parse_chat] at h
          cases hcap : rx.captures (trimL stripped) with
          | none => simp [hcap] at h
          | some pr =>
            obtain ⟨uo, co⟩ := pr
            cases uo with
            | none => simp [hcap] at h
            | some name =>
              cases co with
              | none => simp [hcap] at h
              | some content =>
                simp only [hcap] at h
                cases hget : cacheGet name cache with
                | some u0 =>
                  simp only [get_player_uuid, hget, Except.ok.injEq,
                    Prod.mk.injEq] at h
                  rw [← h.2]
                  exact ⟨fun _ => rfl, fun hn => hn⟩
                | none =>
                  cases hmoj : mojang name with
                  | some resp =>
                    simp only [get_player_uuid, hget, hmoj, Except.ok.injEq,
                      Prod.mk.injEq] at h
                    refine ⟨fun hm => ?_, fun hn => ?_⟩
                    · exfalso
                      simp only [mutationPossible, htp] at hm
                      simp [chatInsertPossible, hmatch, hcap, hget, hmoj] at hm
                    · rw [← h.2]
                      exact nodupKeys_insert _ _ _ hn
                  | none =>
                    simp only [get_player_uuid, hget, hmoj, Except.ok.injEq,
                      Prod.mk.injEq] at h
                    rw [← h.2]
                    exact ⟨fun _ => rfl, fun hn => hn⟩
        · rw [if_neg hmatch] at h
          by_cases hjl : containsSub (trimL stripped) (lstr "joined the game") = true ∨
              containsSub (trimL stripped) (lstr "left the game") = true
          · rw [if_pos hjl] at h
            by_cases hleft : containsSub (trimL stripped) (lstr "left the game") = true
            · rw [if_pos hleft] at h
              refine ⟨fun hm => ?_, fun hn => ?_⟩
              · exfalso
                simp only [mutationPossible, htp] at hm
                simp [hleft] at hm
              · cases hfs : findSpace (trimL stripped) with
                | some e =>
                  simp only [hfs, Except.ok.injEq, Prod.mk.injEq] at h
                  rw [← h.2]
                  exact nodupKeys_remove _ _ hn
                | none =>
                  simp only [hfs, Except.ok.injEq, Prod.mk.injEq] at h
                  rw [← h.2]
                  exact hn
            · rw [if_neg hleft] at h
              simp only [Except.ok.injEq, Prod.mk.injEq] at h
              rw [← h.2]
              exact ⟨fun _ => rfl, fun hn => hn⟩
          · rw [if_neg hjl] at h
            have hc : cache' = cache := by
              by_cases hadv : is_advancement (trimL stripped) = true
              · rw [if_pos hadv] at h
                simp only [Except.ok.injEq, Prod.mk.injEq] at h
                exact h.2.symm
              · rw [if_neg hadv] at h
                by_cases hdone : (lstr "Done (").isPrefixOf (trimL stripped) = true
                · rw [if_pos hdone] at h
                  simp only [Except.ok.injEq, Prod.mk.injEq] at h
                  exact h.2.symm
                · rw [if_neg hdone] at h
                  by_cases hstop : (lstr "Stopping the server").isPrefixOf (trimL stripped) = true
                  · rw [if_pos hstop] at h
                    simp only [Except.ok.injEq, Prod.mk.injEq] at h
                    exact h.2.symm
                  · rw [if_neg hstop] at h
                    simp only [Except.ok.injEq, Prod.mk.injEq] at h
                    exact h.2.symm
            rw [hc]
            exact ⟨fun _ => rfl, fun hn => hn⟩

/-- Witness for claim C9 at a concrete input: an advancement line leaves
a nonempty cache untouched and keeps its keys distinct. -/
theorem c9_cache_frame_witness :
    (parse_line [(lstr "a", lstr "b")] default_death_keywords
        default_ignore_phrases rxNone mojangNone
        (lstr "[12:32:45] [Server thread/INFO]: TestUser has made the advancement [X]") =
      .ok (some ⟨[], lstr ":partying_face: TestUser has made the advancement [X]",
        .server, []⟩, [(lstr "a", lstr "b")]) ∧
      mutationPossible [(lstr "a", lstr "b")] rxNone mojangNone
        (lstr "[12:32:45] [Server thread/INFO]: TestUser has made the advancement [X]") =
        false) ∧
    [(lstr "a", lstr "b")] = [(lstr "a", lstr "b")] ∧
    NodupKeys [(lstr "a", lstr "b")] :=
  ⟨⟨by rfl, by rfl⟩,
    (c9_cache_frame [(lstr "a", lstr "b")] default_death_keywords
      default_ignore_phrases rxNone mojangNone
      (lstr "[12:32:45] [Server thread/INFO]: TestUser has made the advancement [X]")
      (some ⟨[], lstr ":partying_face: TestUser has made the advancement [X]",
        .server, []⟩) [(lstr "a", lstr "b")] (by rfl)).1 (by rfl),
    (c9_cache_frame [(lstr "a", lstr "b")] default_death_keywords
      default_ignore_phrases rxNone mojangNone
      (lstr "[12:32:45] [Server thread/INFO]: TestUser has made the advancement [X]")
      (some ⟨[], lstr ":partying_face: TestUser has made the advancement [X]",
        .server, []⟩) [(lstr "a", lstr "b")] (by rfl)).2
      (by unfold NodupKeys; decide)⟩

/-! ## Claim C1: the stack-reopen rendering algorithm -/

/-- Claim C1: rendering the parse of `*em **strong***` yields exactly
`§oem §lstrong§r§o§r` — after the nested strong span ends in a reset,
one tag is popped and the remaining open italic code is re-emitted right
after the reset — and likewise
`~~strikethrough __underline__~~` renders to
`§mstrikethrough §nunderline§r§m§r`. -/
theorem c1_stack_reopen_render :
    to_minecraft_format (mdparse (lstr "*em **strong***")) =
      lstr "§oem §lstrong§r§o§r" ∧
    to_minecraft_format (mdparse (lstr "~~strikethrough __underline__~~")) =
      lstr "§mstrikethrough §nunderline§r§m§r" :=
  ⟨by rfl, by rfl⟩

/-! ## Claim C8: blockquote line consumption -/

/-- The number of lines the `parse_blockquote` loop consumes, starting
with a given `prev_newline` flag. -/
def bqCount : List (List Char) → Bool → Nat
  | [], _ => 0
  | l :: rest, prevNl =>
    if prevNl ∧ ¬l.isEmpty ∧ l.head? ≠ some '>' then 0
    else 1 + bqCount rest l.isEmpty

/-- The loop's break condition at index `i`: the previous line (or the
incoming flag, at index 0) was empty while line `i` is nonempty and not
quote-prefixed. -/
def bqBreakCond (ls : List (List Char)) (prevNl : Bool) (i : Nat) : Prop :=
  (if i = 0 then prevNl = true else List.getD ls (i - 1) [] = []) ∧
  List.getD ls i [] ≠ [] ∧ (List.getD ls i []).head? ≠ some '>'

theorem bqBreakCond_cons (l : List Char) (rest : List (List Char))
    (prevNl : Bool) (i : Nat) :
    bqBreakCond (l :: rest) prevNl (i + 1) ↔ bqBreakCond rest l.isEmpty i := by
  cases i with
  | zero =>
    simp [bqBreakCond, List.getD, List.isEmpty_iff]
  | succ j =>
    simp [bqBreakCond, List.getD]

theorem bqCount_spec : ∀ (ls : List (List Char)) (prevNl : Bool),
    bqCount ls prevNl ≤ ls.length ∧
    (bqCount ls prevNl = ls.length ∨ bqBreakCond ls prevNl (bqCount ls prevNl)) ∧
    ∀ i, i < bqCount ls prevNl → ¬bqBreakCond ls prevNl i := by
  intro ls
  induction ls with
  | nil =>
    intro prevNl
    exact ⟨Nat.le_refl 0, Or.inl rfl, fun i hi => absurd hi (by simp [bqCount])⟩
  | cons l rest ih =>
    intro prevNl
    by_cases hbr : prevNl ∧ ¬l.isEmpty ∧ l.head? ≠ some '>'
    · have hc : bqCount (l :: rest) prevNl = 0 := by rw [bqCount, if_pos hbr]
      refine ⟨by omega, Or.inr ?_, fun i hi => absurd hi (by omega)⟩
      rw [hc]
      refine ⟨by simpa using hbr.1, ?_, by simpa using hbr.2.2⟩
      simpa [List.isEmpty_iff] using hbr.2.1
    · have hc : bqCount (l :: rest) prevNl = 1 + bqCount rest l.isEmpty := by
        rw [bqCount, if_neg hbr]
      obtain ⟨ihle, ihbr, ihmin⟩ := ih l.isEmpty
      refine ⟨by simp only [List.length_cons]; omega, ?_, ?_⟩
      · rcases ihbr with heq | hbk
        · exact Or.inl (by simp only [List.length_cons]; omega)
        · refine Or.inr ?_
          rw [hc, Nat.add_comm 1 _]
          exact (bqBreakCond_cons l rest prevNl (bqCount rest l.isEmpty)).mpr hbk
      · intro i hi
        cases i with
        | zero =>
          intro hcond
          exact hbr ⟨by simpa using hcond.1, by simpa [List.isEmpty_iff] using hcond.2.1,
            hcond.2.2⟩
        | succ j =>
          intro hcond
          have hj : j < bqCount rest l.isEmpty := by omega
          exact ihmin j hj ((bqBreakCond_cons l rest prevNl j).mp hcond)

theorem bqLoop_snd : ∀ (ls : List (List Char)) (prevNl : Bool)
    (content : List Char) (idx : Nat),
    (bqLoop ls prevNl content idx).2 = idx + bqCount ls prevNl := by
  intro ls
  induction ls with
  | nil => intro prevNl content idx; simp [bqLoop, bqCount]
  | cons l rest ih =>
    intro prevNl content idx
    by_cases hbr : prevNl ∧ ¬l.isEmpty ∧ l.head? ≠ some '>'
    · rw [bqLoop, bqCount]
      rw [if_pos hbr, if_pos hbr]
      simp
    · rw [bqLoop, bqCount]
      rw [if_neg hbr, if_neg hbr]
      simp only [ih]
      omega

/-- Claim C8, counterexample to the claim as stated: the non-empty,
non-quote-prefixed line `"b"` directly after `"> a"` must, per the
claim, close the blockquote unconsumed; `parse_blockquote` instead
consumes both lines (count 2) and folds `"b"` into the quote content,
exactly as the `finds_blockquote` unit test in the source expects. -/
theorem c8_counterexample :
    parse_blockquote_f 5 [lstr "> a", lstr "b"] =
      some (.blockquote (.paragraph (Spans.text (lstr "a") (Spans.text [nlChar]
        (Spans.text (lstr "b") .nil))) .nil) .nil, 2) := by rfl

/-- Claim C8 as amended: a first line starting with `>` opens a
Blockquote that consumes lines up to, and not including, the first line
that is non-empty, not quote-prefixed AND directly preceded by an empty
line; in particular non-empty continuation lines without a blank-line
gap are consumed even when not quote-prefixed, and any number of blank
lines are tolerated.  The consumed count `n` is at least 1, at most the
number of lines, the first unconsumed line (if any) witnesses the break
condition, and no earlier index does. -/
theorem c8_blockquote_amended (fuel : Nat) (l : List Char)
    (ls : List (List Char)) (hne : l ≠ []) (hq : l.head? = some '>') :
    ∃ content n, parse_blockquote_f fuel (l :: ls) =
        some (.blockquote (parse_blocks_f fuel content) .nil, n) ∧
      1 ≤ n ∧ n ≤ (l :: ls).length ∧
      (n = (l :: ls).length ∨
        (List.getD (l :: ls) (n - 1) [] = [] ∧ List.getD (l :: ls) n [] ≠ [] ∧
          (List.getD (l :: ls) n []).head? ≠ some '>')) ∧
      ∀ i, 1 ≤ i → i < n →
        ¬(List.getD (l :: ls) (i - 1) [] = [] ∧ List.getD (l :: ls) i [] ≠ [] ∧
          (List.getD (l :: ls) i []).head? ≠ some '>') := by
  have hguard : ¬(l.isEmpty = true ∨ l.head? ≠ some '>') := by
    rintro (h | h)
    · exact hne (List.isEmpty_iff.mp h)
    · exact h hq
  have hc : bqCount (l :: ls) false = 1 + bqCount ls l.isEmpty := by
    rw [bqCount, if_neg (by simp)]
  obtain ⟨hle, hbrk, hmin⟩ := bqCount_spec (l :: ls) false
  rcases hbl : bqLoop (l :: ls) false [] 0 with ⟨content, idx⟩
  have hidx : idx = bqCount (l :: ls) false := by
    have := bqLoop_snd (l :: ls) false [] 0
    rw [hbl] at this
    simpa using this
  have h1n : 1 ≤ bqCount (l :: ls) false := by omega
  refine ⟨content, bqCount (l :: ls) false, ?_, h1n, hle, ?_, ?_⟩
  · rw [parse_blockquote_f, bq_scan]
    rw [if_neg hguard]
    simp only [hbl]
    rw [if_pos (by omega : idx > 0), hidx]
    rfl
  · rcases hbrk with h | h
    · exact Or.inl h
    · obtain ⟨h1, h2, h3⟩ := h
      rw [if_neg (by omega : ¬bqCount (l :: ls) false = 0)] at h1
      exact Or.inr ⟨h1, h2, h3⟩
  · intro i hi1 hin hcond
    exact hmin i hin ⟨by rw [if_neg (by omega : ¬i = 0)]; exact hcond.1,
      hcond.2.1, hcond.2.2⟩

/-- Witness for the amended claim C8: `["> q", "", "x"]` consumes the
quote line and the blank line, then stops at `"x"`, which witnesses the
break condition, with no earlier break. -/
theorem c8_blockquote_amended_witness :
    (lstr "> q" ≠ [] ∧ (lstr "> q").head? = some '>') ∧
    (∃ content n, parse_blockquote_f 4 [lstr "> q", [], lstr "x"] =
        some (.blockquote (parse_blocks_f 4 content) .nil, n) ∧
      1 ≤ n ∧ n ≤ [lstr "> q", [], lstr "x"].length ∧
      (n = [lstr "> q", [], lstr "x"].length ∨
        (List.getD [lstr "> q", [], lstr "x"] (n - 1) [] = [] ∧
          List.getD [lstr "> q", [], lstr "x"] n [] ≠ [] ∧
          (List.getD [lstr "> q", [], lstr "x"] n []).head? ≠ some '>')) ∧
      ∀ i, 1 ≤ i → i < n →
        ¬(List.getD [lstr "> q", [], lstr "x"] (i - 1) [] = [] ∧
          List.getD [lstr "> q", [], lstr "x"] i [] ≠ [] ∧
          (List.getD [lstr "> q", [], lstr "x"] i []).head? ≠ some '>')) :=
  ⟨⟨by decide, by rfl⟩,
    c8_blockquote_amended 4 (lstr "> q") [[], lstr "x"] (by decide) (by rfl)⟩

/-! ## Claim C10: progress and totality of the span scanner -/

theorem lazyDelim_bound : ∀ (s : List Char) (d : Char) (nf : Bool) (acc n : Nat),
    lazyDelim d nf s acc = some n → acc ≤ n ∧ n - acc + 2 ≤ s.length := by
  intro s
  induction s with
  | nil => intro d nf acc n h; simp [lazyDelim] at h
  | cons c rest ih =>
    intro d nf acc n h
    rw [lazyDelim] at h
    split at h
    next hcl =>
      obtain rfl : acc = n := by simpa using h
      have hr : 1 ≤ rest.length := by
        rcases hcl.2.2.1 with h'
        cases rest with
        | nil => simp at h'
        | cons _ _ => simp
      simp only [List.length_cons]
      omega
    · split at h
      · exact absurd h (by simp)
      · have := ih d nf (acc + 1) n h
        simp only [List.length_cons]
        omega

theorem empStarGo_sing (c : Char) (n w : Nat) : empStarGo [c] n w =
    if c.isWhitespace then empStarGo [] n (w + 1)
    else if c = '*' then (if w = 0 ∧ n ≥ 1 then some n else none)
    else if c = backslashChar then none
    else empStarGo [] (n + w + 1) 0 := rfl

theorem empStarGo_cons₂ (c c₂ : Char) (rest₂ : List Char) (n w : Nat) :
    empStarGo (c :: c₂ :: rest₂) n w =
    if c.isWhitespace then empStarGo (c₂ :: rest₂) n (w + 1)
    else if c = '*' then
      (if c₂ = '*' then empStarGo rest₂ (n + w + 2) 0
       else if w = 0 ∧ n ≥ 1 then some n else none)
    else if c = backslashChar then empStarGo rest₂ (n + w + 2) 0
    else empStarGo (c₂ :: rest₂) (n + w + 1) 0 := rfl

theorem empStarGo_bound : ∀ (L : Nat) (s : List Char), s.length ≤ L →
    ∀ (n w m : Nat), empStarGo s n w = some m →
    n ≤ m ∧ m - n + 1 ≤ s.length + w := by
  intro L
  induction L with
  | zero =>
    intro s hs n w m h
    obtain rfl : s = [] := List.length_eq_zero.mp (Nat.le_zero.mp hs)
    simp [empStarGo] at h
  | succ L ihL =>
    intro s hs n w m h
    cases s with
    | nil => simp [empStarGo] at h
    | cons c rest =>
      cases rest with
      | nil =>
        rw [empStarGo_sing] at h
        by_cases hws : c.isWhitespace
        · rw [if_pos hws] at h
          simp [empStarGo] at h
        · rw [if_neg hws] at h
          by_cases hstar : c = '*'
          · rw [if_pos hstar] at h
            split at h
            · obtain rfl : n = m := by simpa using h
              simp only [List.length_cons]
              omega
            · exact absurd h (by simp)
          · rw [if_neg hstar] at h
            by_cases hbs : c = backslashChar
            · rw [if_pos hbs] at h
              exact absurd h (by simp)
            · rw [if_neg hbs] at h
              simp [empStarGo] at h
      | cons c₂ rest₂ =>
        have hr1 : (c₂ :: rest₂).length ≤ L := by
          simp only [List.length_cons] at hs ⊢
          omega
        have hr2 : rest₂.length ≤ L := by
          simp only [List.length_cons] at hr1
          omega
        rw [empStarGo_cons₂] at h
        by_cases hws : c.isWhitespace
        · rw [if_pos hws] at h
          have := ihL _ hr1 n (w + 1) m h
          simp only [List.length_cons] at *
          omega
        · rw [if_neg hws] at h
          by_cases hstar : c = '*'
          · rw [if_pos hstar] at h
            by_cases hc₂ : c₂ = '*'
            · rw [if_pos hc₂] at h
              have := ihL rest₂ hr2 (n + w + 2) 0 m h
              simp only [List.length_cons] at *
              omega
            · rw [if_neg hc₂] at h
              split at h
              · obtain rfl : n = m := by simpa using h
                simp only [List.length_cons]
                omega
              · exact absurd h (by simp)
          · rw [if_neg hstar] at h
            by_cases hbs : c = backslashChar
            · rw [if_pos hbs] at h
              have := ihL rest₂ hr2 (n + w + 2) 0 m h
              simp only [List.length_cons] at *
              omega
            · rw [if_neg hbs] at h
              have := ihL _ hr1 (n + w + 1) 0 m h
              simp only [List.length_cons] at *
              omega

theorem empUnd_sing (c : Char) (n : Nat) : empUnd [c] n =
    if c = '_' then (if n ≥ 1 ∧ wordBreakAt [] then some n else none)
    else if c = backslashChar then none
    else empUnd [] (n + 1) := rfl

theorem empUnd_cons₂ (c c₂ : Char) (rest₂ : List Char) (n : Nat) :
    empUnd (c :: c₂ :: rest₂) n =
    if c = '_' then
      if n ≥ 1 ∧ wordBreakAt (c₂ :: rest₂) then some n
      else if c₂ = '_' then empUnd rest₂ (n + 2) else none
    else if c = backslashChar then empUnd rest₂ (n + 2)
    else empUnd (c₂ :: rest₂) (n + 1) := rfl

theorem empUnd_bound : ∀ (L : Nat) (s : List Char), s.length ≤ L →
    ∀ (acc n : Nat), empUnd s acc = some n →
    acc ≤ n ∧ n - acc + 1 ≤ s.length := by
  intro L
  induction L with
  | zero =>
    intro s hs acc n h
    obtain rfl : s = [] := List.length_eq_zero.mp (Nat.le_zero.mp hs)
    simp [empUnd] at h
  | succ L ihL =>
    intro s hs acc n h
    cases s with
    | nil => simp [empUnd] at h
    | cons c rest =>
      cases rest with
      | nil =>
        rw [empUnd_sing] at h
        by_cases hund : c = '_'
        · rw [if_pos hund] at h
          split at h
          · obtain rfl : acc = n := by simpa using h
            simp only [List.length_cons]
            omega
          · exact absurd h (by simp)
        · rw [if_neg hund] at h
          by_cases hbs : c = backslashChar
          · rw [if_pos hbs] at h
            exact absurd h (by simp)
          · rw [if_neg hbs] at h
            simp [empUnd] at h
      | cons c₂ rest₂ =>
        have hr1 : (c₂ :: rest₂).length ≤ L := by
          simp only [List.length_cons] at hs ⊢
          omega
        have hr2 : rest₂.length ≤ L := by
          simp only [List.length_cons] at hr1
          omega
        rw [empUnd_cons₂] at h
        by_cases hund : c = '_'
        · rw [if_pos hund] at h
          split at h
          · obtain rfl : acc = n := by simpa using h
            simp only [List.length_cons]
            omega
          · by_cases hc₂ : c₂ = '_'
            · rw [if_pos hc₂] at h
              have := ihL rest₂ hr2 (acc + 2) n h
              simp only [List.length_cons] at *
              omega
            · rw [if_neg hc₂] at h
              exact absurd h (by simp)
        · rw [if_neg hund] at h
          by_cases hbs : c = backslashChar
          · rw [if_pos hbs] at h
            have := ihL rest₂ hr2 (acc + 2) n h
            simp only [List.length_cons] at *
            omega
          · rw [if_neg hbs] at h
            have := ihL _ hr1 (acc + 1) n h
            simp only [List.length_cons] at *
            omega

theorem someOrElse {α : Type} (a : α) (f : Unit → Option α) :
    (some a).orElse f = some a := rfl

theorem noneOrElse {α : Type} (f : Unit → Option α) :
    (none : Option α).orElse f = f () := rfl

theorem parse_escape_raw_bounds (s : List Char) (raw : RawSpan) (n : Nat)
    (h : parse_escape_raw s = some (raw, n)) :
    2 ≤ n ∧ n ≤ s.length ∧
    ∀ tag inner, raw = RawSpan.tagged tag inner → inner.length + 2 ≤ n := by
  cases s with
  | nil => exact absurd h (by simp [parse_escape_raw])
  | cons b t =>
    cases t with
    | nil => exact absurd h (by simp [parse_escape_raw])
    | cons c rest =>
      rw [parse_escape_raw] at h
      split at h
      · obtain ⟨hraw, hn⟩ : RawSpan.lit c = raw ∧ 2 = n := by simpa using h
        refine ⟨by omega, by simp only [List.length_cons]; omega, ?_⟩
        intro tag inner htag
        rw [← hraw] at htag
        exact absurd htag (by simp)
      · exact absurd h (by simp)

theorem parse_strong_raw_bounds (s : List Char) (raw : RawSpan) (n : Nat)
    (h : parse_strong_raw s = some (raw, n)) :
    2 ≤ n ∧ n ≤ s.length ∧
    ∀ tag inner, raw = RawSpan.tagged tag inner → inner.length + 2 ≤ n := by
  cases s with
  | nil => exact absurd h (by simp [parse_strong_raw])
  | cons c₁ t =>
    cases t with
    | nil => exact absurd h (by simp [parse_strong_raw])
    | cons c₂ rest =>
      rw [parse_strong_raw] at h
      split at h
      · rw [Option.map_eq_some'] at h
        obtain ⟨k, hk, heq⟩ := h
        obtain ⟨hraw, hn⟩ := Prod.mk.injEq .. ▸ heq
        have hb := lazyDelim_bound rest '*' true 0 k hk
        refine ⟨by omega, by simp only [List.length_cons]; omega, ?_⟩
        intro tag inner htag
        rw [← hraw] at htag
        obtain ⟨-, hinner⟩ : tag = SpanTag.strong ∧ rest.take k = inner := by
          simpa [eq_comm] using htag
        rw [← hinner, List.length_take]
        omega
      · exact absurd h (by simp)

theorem parse_strikethrough_raw_bounds (s : List Char) (raw : RawSpan) (n : Nat)
    (h : parse_strikethrough_raw s = some (raw, n)) :
    2 ≤ n ∧ n ≤ s.length ∧
    ∀ tag inner, raw = RawSpan.tagged tag inner → inner.length + 2 ≤ n := by
  cases s with
  | nil => exact absurd h (by simp [parse_strikethrough_raw])
  | cons c₁ t =>
    cases t with
    | nil => exact absurd h (by simp [parse_strikethrough_raw])
    | cons c₂ rest =>
      rw [parse_strikethrough_raw] at h
      split at h
      · rw [Option.map_eq_some'] at h
        obtain ⟨k, hk, heq⟩ := h
        obtain ⟨hraw, hn⟩ := Prod.mk.injEq .. ▸ heq
        have hb := lazyDelim_bound rest '~' false 0 k hk
        refine ⟨by omega, by simp only [List.length_cons]; omega, ?_⟩
        intro tag inner htag
        rw [← hraw] at htag
        obtain ⟨-, hinner⟩ : tag = SpanTag.strikethrough ∧ rest.take k = inner := by
          simpa [eq_comm] using htag
        rw [← hinner, List.length_take]
        omega
      · exact absurd h (by simp)

theorem parse_underline_raw_bounds (s : List Char) (raw : RawSpan) (n : Nat)
    (h : parse_underline_raw s = some (raw, n)) :
    2 ≤ n ∧ n ≤ s.length ∧
    ∀ tag inner, raw = RawSpan.tagged tag inner → inner.length + 2 ≤ n := by
  cases s with
  | nil => exact absurd h (by simp [parse_underline_raw])
  | cons c₁ t =>
    cases t with
    | nil => exact absurd h (by simp [parse_underline_raw])
    | cons c₂ rest =>
      rw [parse_underline_raw] at h
      split at h
      · rw [Option.map_eq_some'] at h
        obtain ⟨k, hk, heq⟩ := h
        obtain ⟨hraw, hn⟩ := Prod.mk.injEq .. ▸ heq
        have hb := lazyDelim_bound rest '_' true 0 k hk
        refine ⟨by omega, by simp only [List.length_cons]; omega, ?_⟩
        intro tag inner htag
        rw [← hraw] at htag
        obtain ⟨-, hinner⟩ : tag = SpanTag.underline ∧ rest.take k = inner := by
          simpa [eq_comm] using htag
        rw [← hinner, List.length_take]
        omega
      · exact absurd h (by simp)

theorem parse_emphasis_star_bounds (rest : List Char) (raw : RawSpan) (n : Nat)
    (h : parse_emphasis_star rest = some (raw, n)) :
    2 ≤ n ∧ n ≤ rest.length + 1 ∧
    ∀ tag inner, raw = RawSpan.tagged tag inner → inner.length + 2 ≤ n := by
  cases rest with
  | nil => exact absurd h (by simp [parse_emphasis_star])
  | cons c₂ rest₂ =>
    rw [parse_emphasis_star] at h
    split at h
    · exact absurd h (by simp)
    · rw [Option.map_eq_some'] at h
      obtain ⟨k, hk, heq⟩ := h
      obtain ⟨hraw, hn⟩ := Prod.mk.injEq .. ▸ heq
      have hb := empStarGo_bound (c₂ :: rest₂).length (c₂ :: rest₂)
        (Nat.le_refl _) 0 0 k hk
      refine ⟨by omega, by simp only [List.length_cons] at *; omega, ?_⟩
      intro tag inner htag
      rw [← hraw] at htag
      obtain ⟨-, hinner⟩ :
          tag = SpanTag.emphasis ∧ (c₂ :: rest₂).take k = inner := by
        simpa [eq_comm] using htag
      rw [← hinner, List.length_take]
      omega

theorem parse_emphasis_tail_bounds (c : Char) (rest : List Char)
    (raw : RawSpan) (n : Nat) (h : parse_emphasis_tail c rest = some (raw, n)) :
    2 ≤ n ∧ n ≤ rest.length + 1 ∧
    ∀ tag inner, raw = RawSpan.tagged tag inner → inner.length + 2 ≤ n := by
  rw [parse_emphasis_tail] at h
  split at h
  · rw [Option.map_eq_some'] at h
    obtain ⟨k, hk, heq⟩ := h
    obtain ⟨hraw, hn⟩ := Prod.mk.injEq .. ▸ heq
    have hb := empUnd_bound rest.length rest (Nat.le_refl _) 0 k hk
    refine ⟨by omega, by omega, ?_⟩
    intro tag inner htag
    rw [← hraw] at htag
    obtain ⟨-, hinner⟩ : tag = SpanTag.emphasis ∧ rest.take k = inner := by
      simpa [eq_comm] using htag
    rw [← hinner, List.length_take]
    omega
  · split at h
    · exact parse_emphasis_star_bounds rest raw n h
    · exact absurd h (by simp)

theorem parse_emphasis_raw_bounds (s : List Char) (raw : RawSpan) (n : Nat)
    (h : parse_emphasis_raw s = some (raw, n)) :
    2 ≤ n ∧ n ≤ s.length ∧
    ∀ tag inner, raw = RawSpan.tagged tag inner → inner.length + 2 ≤ n := by
  rw [parse_emphasis_raw.eq_def] at h
  split at h
  · exact absurd h (by simp)
  · split at h
    next c rest heq =>
      obtain ⟨h1, h2, h3⟩ := parse_emphasis_tail_bounds c rest raw n h
      exact ⟨h1, by simp only [List.length_cons]; omega, h3⟩
    next => exact absurd h (by simp)

theorem parse_span_raw_bounds (s : List Char) (raw : RawSpan) (n : Nat)
    (h : parse_span_raw s = some (raw, n)) :
    2 ≤ n ∧ n ≤ s.length ∧
    ∀ tag inner, raw = RawSpan.tagged tag inner → inner.length + 2 ≤ n := by
  rw [parse_span_raw] at h
  cases h₁ : parse_escape_raw s with
  | some pr =>
    rw [h₁, someOrElse] at h
    obtain rfl : pr = (raw, n) := by simpa using h
    exact parse_escape_raw_bounds s raw n h₁
  | none =>
    rw [h₁, noneOrElse] at h
    cases h₂ : parse_strong_raw s with
    | some pr =>
      rw [h₂, someOrElse] at h
      obtain rfl : pr = (raw, n) := by simpa using h
      exact parse_strong_raw_bounds s raw n h₂
    | none =>
      rw [h₂, noneOrElse] at h
      cases h₃ : parse_emphasis_raw s with
      | some pr =>
        rw [h₃, someOrElse] at h
        obtain rfl : pr = (raw, n) := by simpa using h
        exact parse_emphasis_raw_bounds s raw n h₃
      | none =>
        rw [h₃, noneOrElse] at h
        cases h₄ : parse_strikethrough_raw s with
        | some pr =>
          rw [h₄, someOrElse] at h
          obtain rfl : pr = (raw, n) := by simpa using h
          exact parse_strikethrough_raw_bounds s raw n h₄
        | none =>
          rw [h₄, noneOrElse] at h
          exact parse_underline_raw_bounds s raw n h

theorem psGo_nil (f : Nat) (tokens : Spans) (t : List Char) : psGo f [] tokens t =
    (if t.isEmpty then tokens
     else tokens.append
       (.text (trimEndL (if tokens.isNil then trimStartL t else t)) .nil)) := by
  cases f <;> rfl

theorem psGo_cons (fuel : Nat) (c : Char) (rest : List Char) (tokens : Spans)
    (t : List Char) :
    psGo (fuel + 1) (c :: rest) tokens t =
      (match parse_span_raw (c :: rest) with
      | some (raw, consumed) =>
        let tokens :=
          if t.isEmpty then tokens
          else tokens.append (.text (if tokens.isNil then trimStartL t else t) .nil)
        let s : Spans :=
          match raw with
          | .lit ch => .literal ch .nil
          | .tagged tag inner => .tagged tag (parse_spans_f fuel inner) .nil
        psGo fuel ((c :: rest).drop consumed) (tokens.append s) []
      | none => psGo fuel rest tokens (t ++ [c])) := rfl

/-- Fuel congruence for the span-scanning loop: with any two fuels at
least the length of the remaining text (and stabilization available for
strictly shorter recursive parses), the loop's result is the same. -/
theorem psGo_congr : ∀ (N : Nat),
    (∀ c : List Char, c.length < N → ∀ f g, c.length < f → c.length < g →
      parse_spans_f f c = parse_spans_f g c) →
    ∀ (M : Nat) (rest : List Char) (tokens : Spans) (t : List Char) (f g : Nat),
    rest.length ≤ M → rest.length ≤ N → rest.length ≤ f → rest.length ≤ g →
    psGo f rest tokens t = psGo g rest tokens t := by
  intro N hN M
  induction M with
  | zero =>
    intro rest tokens t f g hM hN' hf hg
    obtain rfl : rest = [] := List.length_eq_zero.mp (Nat.le_zero.mp hM)
    rw [psGo_nil, psGo_nil]
  | succ M ihM =>
    intro rest tokens t f g hM hN' hf hg
    cases rest with
    | nil => rw [psGo_nil, psGo_nil]
    | cons c rest' =>
      simp only [List.length_cons] at hM hN' hf hg
      cases f with
      | zero => omega
      | succ f' =>
        cases g with
        | zero => omega
        | succ g' =>
          rw [psGo_cons, psGo_cons]
          cases hp : parse_span_raw (c :: rest') with
          | none =>
            simp only [hp]
            exact ihM rest' tokens (t ++ [c]) f' g' (by omega) (by omega)
              (by omega) (by omega)
          | some pr =>
            obtain ⟨raw, consumed⟩ := pr
            obtain ⟨h2, hle, hinner⟩ := parse_span_raw_bounds _ _ _ hp
            simp only [List.length_cons] at hle
            have hdrop : ((c :: rest').drop consumed).length ≤ rest'.length - 1 := by
              simp only [List.length_drop, List.length_cons]
              omega
            cases raw with
            | lit ch =>
              simp only [hp]
              exact ihM _ _ _ f' g' (by omega) (by omega) (by omega) (by omega)
            | tagged tag inner =>
              have hin : inner.length + 2 ≤ consumed := hinner tag inner rfl
              have hst : parse_spans_f f' inner = parse_spans_f g' inner :=
                hN inner (by omega) f' g' (by omega) (by omega)
              simp only [hp, hst]
              exact ihM _ _ _ f' g' (by omega) (by omega) (by omega) (by omega)

/-- Fuel stabilization for `parse_spans_f`: any fuel above the content
length yields the same parse, so `parse_spans` (which passes
`content.length + 1`) computes the scanner's limit value. -/
theorem parse_spans_f_stable : ∀ (N : Nat) (content : List Char),
    content.length ≤ N → ∀ f g, content.length < f → content.length < g →
    parse_spans_f f content = parse_spans_f g content := by
  intro N
  induction N with
  | zero =>
    intro content hlen f g hf hg
    obtain rfl : content = [] := List.length_eq_zero.mp (Nat.le_zero.mp hlen)
    cases f with
    | zero => omega
    | succ f' =>
      cases g with
      | zero => omega
      | succ g' =>
        rw [parse_spans_f, parse_spans_f, psGo_nil, psGo_nil]
  | succ N ihN =>
    intro content hlen f g hf hg
    cases f with
    | zero => omega
    | succ f' =>
      cases g with
      | zero => omega
      | succ g' =>
        rw [parse_spans_f, parse_spans_f]
        exact psGo_congr (N + 1)
          (fun c hc f g hf hg => ihN c (by omega) f g hf hg)
          content.length content .nil [] f' g' (Nat.le_refl _) hlen
          (by omega) (by omega)

/-- Claim C10: the span scanner terminates on every input.  Each
successful matcher consumes at least two source characters
(`2 ≤ n`), never more than the remaining text (`n ≤ s.length`), and
recursive span parsing is applied only to strict substrings (the inner
text plus the two delimiters fits inside the consumed amount, so
`inner.length < s.length`); an unmatched position advances past exactly
one character by the `none` branch of `psGo`.  Consequently the fuelled
scanner stabilizes for any fuel above the content length, making
`parse_spans` (and with it `parse` and the structurally recursive
renderer `to_minecraft_format`) a total function of its input. -/
theorem c10_span_scanner_total :
    (∀ (s : List Char) (raw : RawSpan) (n : Nat),
        parse_span_raw s = some (raw, n) →
        2 ≤ n ∧ n ≤ s.length ∧
        ∀ tag inner, raw = RawSpan.tagged tag inner → inner.length + 2 ≤ n) ∧
    (∀ (content : List Char) (f g : Nat), content.length < f →
        content.length < g → parse_spans_f f content = parse_spans_f g content) :=
  ⟨parse_span_raw_bounds, fun content f g hf hg =>
    parse_spans_f_stable content.length content (Nat.le_refl _) f g hf hg⟩

/-- Witness for claim C10 at concrete inputs: the emphasis matcher on
`*a* b` consumes 3 of 5 characters with inner text `a`, and two
different sufficient fuels parse `*a* b` identically. -/
theorem c10_span_scanner_total_witness :
    (parse_span_raw (lstr "*a* b") =
        some (.tagged .emphasis (lstr "a"), 3) ∧
      2 ≤ 3 ∧ 3 ≤ (lstr "*a* b").length ∧ (lstr "a").length + 2 ≤ 3) ∧
    ((lstr "*a* b").length < 6 ∧ (lstr "*a* b").length < 42 ∧
      parse_spans_f 6 (lstr "*a* b") = parse_spans_f 42 (lstr "*a* b")) :=
  ⟨⟨by rfl,
    (c10_span_scanner_total.1 (lstr "*a* b")
      (.tagged .emphasis (lstr "a")) 3 (by rfl)).1,
    (c10_span_scanner_total.1 (lstr "*a* b")
      (.tagged .emphasis (lstr "a")) 3 (by rfl)).2.1,
    (c10_span_scanner_total.1 (lstr "*a* b")
      (.tagged .emphasis (lstr "a")) 3 (by rfl)).2.2 .emphasis (lstr "a") rfl⟩,
   by decide, by decide,
   c10_span_scanner_total.2 (lstr "*a* b") 6 42 (by decide) (by decide)⟩
